import Mathlib

/-!
# asyncjobs dependency graph (`graph.go`)

A shallow embedding of the dependency graph of `graph.go`: items that point at
each other through `edges` and `parents`, the registry `Graph`, the relation
manager with its cycle check, and the execution walker.

Go pointers `*Item` are addresses into an explicit memory `List Item`: the
address of an item is its index.  `NewItem` allocates at the end of the memory,
and every mutation through a pointer is a `List.set` at that address.  Go maps
keyed by `string` are association lists without duplicate keys.  The Go `error`
results are `Option String` (`none` is `nil`).
-/

namespace Asyncjobs

/-- Address of an `Item` in memory (a Go `*Item`). -/
abbrev Ptr := Nat

/-- The Go struct `Item`; `value` is the opaque payload. -/
structure Item where
  value : Nat
  name : String
  edges : List Ptr
  parents : List Ptr
deriving DecidableEq, Repr

/-- The Go struct `Graph` (the mutex excepted). -/
structure Graph where
  items : List (String × Ptr)
  edges : List (String × List Ptr)
  root : Option Ptr
deriving DecidableEq, Repr

/-- Memory holding every allocated item, together with the graph. -/
structure World where
  mem : List Item
  g : Graph
deriving DecidableEq, Repr

/-- Read through a pointer. -/
def deref (mem : List Item) (p : Ptr) : Item :=
  mem.getD p ⟨0, "", [], []⟩

/-- The assignment `p.parents = ps`. -/
def setParents (mem : List Item) (p : Ptr) (ps : List Ptr) : List Item :=
  mem.set p { deref mem p with parents := ps }

/-- The assignment `p.edges = es`. -/
def setEdges (mem : List Item) (p : Ptr) (es : List Ptr) : List Item :=
  mem.set p { deref mem p with edges := es }

/-- Map read `m[k]` with the comma-ok flag as `Option`. -/
def mapGet {α : Type} (m : List (String × α)) (k : String) : Option α :=
  m.lookup k

/-- Map write `m[k] = v`. -/
def mapSet {α : Type} (m : List (String × α)) (k : String) (v : α) : List (String × α) :=
  match m.lookup k with
  | some _ => m.map (fun e => if e.1 = k then (k, v) else e)
  | none => m ++ [(k, v)]

/-- The slice expression `s[0 : len(s)-1]`. -/
def sliceInit {α : Type} (s : List α) : List α :=
  s.take (s.length - 1)

/-- Go `NewItem(n, v)`: allocates a fresh item and returns its address. -/
def NewItem (w : World) (n : String) (v : Nat) : World × Ptr :=
  ({ w with mem := w.mem ++ [⟨v, n, [], []⟩] }, w.mem.length)

/-- Go `NewGraph()`: a graph with no items. -/
def NewGraph : Graph :=
  ⟨[], [], none⟩

/-- The state before any item is allocated, holding a new graph. -/
def World.empty : World :=
  ⟨[], NewGraph⟩

/-- The worklist loop of `isCyclic`.  The first argument bounds the number of
dequeues; `none` means the bound was reached before the loop returned. -/
def isCyclicLoop (mem : List Item) : Nat → List Ptr → List String → Option Bool
  | _, [], _ => some false
  | 0, _ :: _, _ => none
  | fuel + 1, current :: stack, visited =>
    if (deref mem current).name ∈ visited then some true
    else isCyclicLoop mem fuel (stack ++ (deref mem current).parents)
      ((deref mem current).name :: visited)

/-- Go `isCyclic(item)`.  The loop is given `len(mem) + 2` dequeues, which
`isCyclic_isSome` shows to be always enough. -/
def isCyclic (mem : List Item) (item : Ptr) : Option Bool :=
  if (deref mem item).parents.length = 0 then some false
  else isCyclicLoop mem (mem.length + 2) [item] []

/-- The three appends at the head of `AddItemRelation`:
`g.edges[i1.name] = append(g.edges[i1.name], i2)`,
`i2.parents = append(i2.parents, i1)`, `i1.edges = append(i1.edges, i2)`. -/
def link (w : World) (i1 i2 : Ptr) : World :=
  let n1 := (deref w.mem i1).name
  let ge := mapSet w.g.edges n1 (((mapGet w.g.edges n1).getD []) ++ [i2])
  let m1 := setParents w.mem i2 ((deref w.mem i2).parents ++ [i1])
  let m2 := setEdges m1 i1 ((deref m1 i1).edges ++ [i2])
  ⟨m2, { w.g with edges := ge }⟩

/-- The three truncations of the rejecting branch of `AddItemRelation`. -/
def unlink (w : World) (i1 i2 : Ptr) : World :=
  let n1 := (deref w.mem i1).name
  let ge := mapSet w.g.edges n1 (sliceInit ((mapGet w.g.edges n1).getD []))
  let m1 := setParents w.mem i2 (sliceInit (deref w.mem i2).parents)
  let m2 := setEdges m1 i1 (sliceInit (deref m1 i1).edges)
  ⟨m2, { w.g with edges := ge }⟩

/-- Go `AddItemRelation(i1, i2)`: the new state and the returned error. -/
def AddItemRelation (w : World) (i1 i2 : Ptr) : Option (World × Option String) :=
  match isCyclic (link w i1 i2).mem i1 with
  | none => none
  | some true => some (unlink (link w i1 i2) i1 i2, some "cyclic")
  | some false => some (link w i1 i2, none)

/-- Go `AddItem(item)`: the new state and the returned error. -/
def AddItem (w : World) (item : Ptr) : World × Option String :=
  match mapGet w.g.items (deref w.mem item).name with
  | some _ => (w, some "item not unique")
  | none =>
    let items := mapSet w.g.items (deref w.mem item).name item
    if items.length = 1 then
      (⟨w.mem, { w.g with items := items, root := some item }⟩, none)
    else
      (⟨w.mem, { w.g with items := items }⟩, none)

/-- Go `GetItem(name)`: the state after the call, the item and the found flag. -/
def GetItem (w : World) (name : String) : World × Option Ptr × Bool :=
  match mapGet w.g.items name with
  | some i => (w, some i, true)
  | none => (w, none, false)

/-- Child edge `p → c`: `c` occurs in `p.edges`. -/
def ChildEdge (mem : List Item) (p c : Ptr) : Prop :=
  c ∈ (deref mem p).edges

/-- Parent link `c → p`: `p` occurs in `c.parents`. -/
def ParentLink (mem : List Item) (c p : Ptr) : Prop :=
  p ∈ (deref mem c).parents

/-- States reached from `NewGraph()` by `NewItem`, `AddItem` and
`AddItemRelation` calls on allocated items, rejected calls included. -/
inductive Reachable : World → Prop
  | newGraph : Reachable World.empty
  | newItem {w : World} (n : String) (v : Nat) : Reachable w → Reachable (NewItem w n v).1
  | addItem {w : World} (i : Ptr) : Reachable w → i < w.mem.length → Reachable (AddItem w i).1
  | addItemRelation {w w1 : World} (i1 i2 : Ptr) (e : Option String) : Reachable w →
      i1 < w.mem.length → i2 < w.mem.length → AddItemRelation w i1 i2 = some (w1, e) →
      Reachable w1

/-- Every name a dereference can yield. -/
def allNames (mem : List Item) : List String :=
  "" :: mem.map Item.name

/-- A sequence of `AddItemRelation` calls, with the error of each call. -/
def AddItemRelations : World → List (Ptr × Ptr) → Option (World × List (Option String))
  | w, [] => some (w, [])
  | w, (i1, i2) :: rest =>
    match AddItemRelation w i1 i2 with
    | none => none
    | some (w1, e) =>
      match AddItemRelations w1 rest with
      | none => none
      | some (w2, es) => some (w2, e :: es)

/-- The calls of a sequence that returned `nil`, in call order. -/
def successes (calls : List (Ptr × Ptr)) (errs : List (Option String)) : List (Ptr × Ptr) :=
  ((calls.zip errs).filter (fun ce => ce.2 = none)).map (fun ce => ce.1)

/-- A sequence of `AddItem` calls. -/
def AddItems (w : World) (items : List Ptr) : World :=
  items.foldl (fun w i => (AddItem w i).1) w

/-- Allocates one item per name, in order, without registering it. -/
def NewItems (w : World) (names : List String) : World :=
  names.foldl (fun w n => (NewItem w n 0).1) w

/-- Items `a`, `b`, `c`, `d`, `e` at addresses `0` to `4`, all registered. -/
def fiveItems : World :=
  AddItems (NewItems World.empty ["a", "b", "c", "d", "e"]) [0, 1, 2, 3, 4]

/-- The diamond `a → b`, `a → c`, `b → d`, `c → d` over `fiveItems`; `e` is isolated. -/
def diamondE : World :=
  { mem := [⟨0, "a", [1, 2], []⟩, ⟨0, "b", [3], [0]⟩, ⟨0, "c", [3], [0]⟩,
      ⟨0, "d", [], [1, 2]⟩, ⟨0, "e", [], []⟩],
    g := { items := [("a", 0), ("b", 1), ("c", 2), ("d", 3), ("e", 4)],
           edges := [("a", [1, 2]), ("b", [3]), ("c", [3])],
           root := some 0 } }

/-- Items `a`, `b`, `c`, `d` at addresses `0` to `3`, all registered. -/
def fourItems : World :=
  AddItems (NewItems World.empty ["a", "b", "c", "d"]) [0, 1, 2, 3]

/-- The diamond `a → b`, `a → c`, `b → d`, `c → d` over `fourItems`. -/
def diamond : World :=
  { mem := [⟨0, "a", [1, 2], []⟩, ⟨0, "b", [3], [0]⟩, ⟨0, "c", [3], [0]⟩,
      ⟨0, "d", [], [1, 2]⟩],
    g := { items := [("a", 0), ("b", 1), ("c", 2), ("d", 3)],
           edges := [("a", [1, 2]), ("b", [3]), ("c", [3])],
           root := some 0 } }

/-- Items `a`, `b` at addresses `0` and `1`, both registered. -/
def twoItems : World :=
  AddItems (NewItems World.empty ["a", "b"]) [0, 1]

/-- The chain `a → b` over `twoItems`. -/
def chain : World :=
  { mem := [⟨0, "a", [1], []⟩, ⟨0, "b", [], [0]⟩],
    g := { items := [("a", 0), ("b", 1)], edges := [("a", [1])], root := some 0 } }

/-! ### The execution walker

`WalkForExecution` runs one main loop and one goroutine per launched item.  The
model is an interleaving transition system: a step is either the next action of
the main loop or the next action of one goroutine, each action being one
lock-protected section (or one lock-free statement) of the source.  Every read
and write of the shared `stack` and `visited` is atomic, the unlocked read of
`len(stack)` at the head of the loop included, and `time.Sleep` is a no-op.  The
`trace` field is a ghost log of callback events; nothing reads it. -/

/-- Callback events, in the order they happen. -/
inductive Event where
  | start (i : Ptr)
  | ok (i : Ptr)
  | fail (i : Ptr) (e : String)
deriving DecidableEq, Repr

/-- Progress of one goroutine running `visit(&wg, i)`. -/
inductive GState where
  /-- Created by `go visit(..)`; `cb(i)` not yet called. -/
  | spawned
  /-- Inside `cb(i)`, which will return `r`. -/
  | running (r : Option String)
  /-- The call `cb(i)` has returned `r`; the rest of `visit` is still to run. -/
  | returned (r : Option String)
deriving DecidableEq, Repr

/-- Program counter of the main loop of `WalkForExecution`. -/
inductive PC where
  /-- At `if len(stack) == 0`. -/
  | top
  /-- At `current, stack = stack[0], stack[1:]`. -/
  | deq
  /-- In `for _, p := range current.parents`, with the parents still to examine. -/
  | check (current : Ptr) (rest : List Ptr)
  /-- Parent not visited: at `stack = append(stack, current)`, sleep, `continue`. -/
  | requeue (current : Ptr) (rest : List Ptr)
  /-- At `wg.Add(1); go visit(&wg, current)`. -/
  | launch (current : Ptr)
  /-- At `l := len(stack)`. -/
  | len
  /-- At `wg.Wait()`. -/
  | wait
  /-- Returned with the given error. -/
  | done (result : Option String)
deriving DecidableEq, Repr

/-- State of one `WalkForExecution` call. -/
structure Walk where
  pc : PC
  stack : List Ptr
  visited : List String
  errors : List String
  goroutines : List (Ptr × GState)
  trace : List Event
deriving DecidableEq, Repr

/-- A callback: the result of the `n`-th callback invocation of a walk (counted
from zero in the order the invocations start) on item `i`. -/
abbrev Callback := Nat → Ptr → Option String

/-- One scheduling decision. -/
inductive Choice where
  | main
  | go (k : Nat)
deriving DecidableEq, Repr

/-- The items the first loop of `WalkForExecution` puts on the stack, in registry
order; Go ranges over the map in an unspecified order. -/
def readyItems (w : World) : List Ptr :=
  (w.g.items.map Prod.snd).filter (fun i => (deref w.mem i).parents.length = 0)

/-- State on entry to the main loop, the ready items having been stacked in the
given order. -/
def walkEntry (order : List Ptr) : Walk :=
  ⟨PC.top, order, [], [], [], []⟩

/-- State after the immediate return on an empty registry. -/
def walkNoItems : Walk :=
  ⟨PC.done (some "no items"), [], [], [], [], []⟩

/-- State after the head of `WalkForExecution` (the `len(g.items) == 0` test and
the loop that stacks the ready items), for one order of the ready items. -/
def walkStart (w : World) (order : List Ptr) : Walk :=
  if w.g.items.length = 0 then walkNoItems else walkEntry order

/-- Initial states of `WalkForExecution`: one per order in which the range over
the map `g.items` can yield the ready items. -/
def WalkStart (w : World) (s : Walk) : Prop :=
  ∃ order, order.Perm (readyItems w) ∧ s = walkStart w order

/-- Number of callback invocations started so far. -/
def startCount (trace : List Event) : Nat :=
  (trace.filter (fun e => match e with
    | Event.start _ => true
    | _ => false)).length

/-- The next action of the main loop. -/
def stepMain (w : World) (s : Walk) : Option Walk :=
  match s.pc with
  | PC.top =>
    if s.stack.length = 0 then some { s with pc := PC.done none }
    else some { s with pc := PC.deq }
  | PC.deq =>
    match s.stack with
    | [] => none
    | current :: rest =>
      some { s with pc := PC.check current (deref w.mem current).parents, stack := rest }
  | PC.check current [] => some { s with pc := PC.launch current }
  | PC.check current (p :: rest) =>
    if (deref w.mem p).name ∈ s.visited then some { s with pc := PC.check current rest }
    else some { s with pc := PC.requeue current rest }
  | PC.requeue current rest =>
    some { s with pc := PC.check current rest, stack := s.stack ++ [current] }
  | PC.launch current =>
    some { s with pc := PC.len, goroutines := s.goroutines ++ [(current, GState.spawned)] }
  | PC.len =>
    if s.stack.length = 0 then some { s with pc := PC.wait }
    else some { s with pc := PC.top }
  | PC.wait =>
    if s.goroutines.length = 0 then some { s with pc := PC.top } else none
  | PC.done _ => none

/-- The next action of the `k`-th live goroutine, which runs the closure `visit`. -/
def visit (w : World) (cb : Callback) (k : Nat) (s : Walk) : Option Walk :=
  match s.goroutines[k]? with
  | none => none
  | some (i, GState.spawned) =>
    some { s with
      goroutines := s.goroutines.set k (i, GState.running (cb (startCount s.trace) i)),
      trace := s.trace ++ [Event.start i] }
  | some (i, GState.running none) =>
    some { s with
      goroutines := s.goroutines.set k (i, GState.returned none),
      trace := s.trace ++ [Event.ok i] }
  | some (i, GState.running (some e)) =>
    some { s with
      goroutines := s.goroutines.set k (i, GState.returned (some e)),
      trace := s.trace ++ [Event.fail i e] }
  | some (_, GState.returned (some e)) =>
    if s.errors.length < w.g.items.length then
      some { s with errors := s.errors ++ [e], goroutines := s.goroutines.eraseIdx k }
    else none
  | some (i, GState.returned none) =>
    some { s with
      visited := (deref w.mem i).name :: s.visited,
      stack := s.stack ++ (deref w.mem i).edges,
      goroutines := s.goroutines.eraseIdx k }

/-- One step of the walk under a scheduling decision; `none` when the chosen
thread is blocked or finished. -/
def step (w : World) (cb : Callback) (c : Choice) (s : Walk) : Option Walk :=
  match c with
  | Choice.main => stepMain w s
  | Choice.go k => visit w cb k s

/-- The walk under a schedule. -/
def run (w : World) (cb : Callback) : List Choice → Walk → Option Walk
  | [], s => some s
  | c :: rest, s =>
    match step w cb c s with
    | none => none
    | some s1 => run w cb rest s1

/-- Go `WalkForExecution(cb)` under a schedule, the ready items having been
stacked in the given order: the state after the scheduled steps, `none` when the
schedule asks a blocked or finished thread to move. -/
def WalkForExecution (w : World) (cb : Callback) (order : List Ptr)
    (sched : List Choice) : Option Walk :=
  run w cb sched (walkStart w order)

/-- States a `WalkForExecution(cb)` call can be in, under any order of the ready
items and any schedule. -/
inductive WalkReach (w : World) (cb : Callback) : Walk → Prop
  | start {s : Walk} : WalkStart w s → WalkReach w cb s
  | step {s s1 : Walk} (c : Choice) : WalkReach w cb s → step w cb c s = some s1 →
      WalkReach w cb s1

/-- Whether, along a trace, every callback starts only after the callbacks of all
parents of its item have returned `nil`; `done` holds the items whose callback has
returned `nil` so far. -/
def parentsFirst (mem : List Item) : List Event → List Ptr → Bool
  | [], _ => true
  | Event.start i :: rest, done =>
    (deref mem i).parents.all (fun p => decide (p ∈ done)) && parentsFirst mem rest done
  | Event.ok i :: rest, done => parentsFirst mem rest (i :: done)
  | Event.fail _ _ :: rest, done => parentsFirst mem rest done

/-- The callback that always succeeds. -/
def cbOk : Callback :=
  fun _ _ => none

/-- The callback that fails on the item at address `bad` and succeeds elsewhere. -/
def cbFailAt (bad : Ptr) : Callback :=
  fun _ i => if i = bad then some "boom" else none

/-- Schedule on `diamond`: `a` runs alone; `b` is launched and finishes before the
main loop reads `len(stack)`; `c` is launched and its callback is still running
when `d` is dequeued, checked and launched. -/
def schedOverlap : List Choice :=
  [Choice.main, Choice.main, Choice.main, Choice.main, Choice.main,
    Choice.go 0, Choice.go 0, Choice.go 0, Choice.main,
    Choice.main, Choice.main, Choice.main, Choice.main, Choice.main,
    Choice.go 0, Choice.go 0, Choice.go 0, Choice.main,
    Choice.main, Choice.main, Choice.main, Choice.main, Choice.main,
    Choice.go 0, Choice.main,
    Choice.main, Choice.main, Choice.main, Choice.main, Choice.main, Choice.main,
    Choice.main, Choice.go 1]

/-- Schedule on `diamond`: the main loop launches until the stack is empty and
waits, then every goroutine runs to its end, in launch order. -/
def schedBatches : List Choice :=
  [Choice.main, Choice.main, Choice.main, Choice.main, Choice.main,
    Choice.go 0, Choice.go 0, Choice.go 0, Choice.main,
    Choice.main, Choice.main, Choice.main, Choice.main, Choice.main, Choice.main,
    Choice.main, Choice.main, Choice.main, Choice.main, Choice.main, Choice.main,
    Choice.go 0, Choice.go 0, Choice.go 0, Choice.go 0, Choice.go 0, Choice.go 0,
    Choice.main,
    Choice.main, Choice.main, Choice.main, Choice.main, Choice.main, Choice.main,
    Choice.main,
    Choice.main, Choice.main, Choice.main, Choice.main, Choice.main, Choice.main,
    Choice.main,
    Choice.go 0, Choice.go 0, Choice.go 0, Choice.go 0, Choice.go 0, Choice.go 0,
    Choice.main, Choice.main]

/-- Schedule on `chain`: `a` is launched and runs to its end, then the main loop
finds the stack empty. -/
def schedChain : List Choice :=
  [Choice.main, Choice.main, Choice.main, Choice.main, Choice.main,
    Choice.go 0, Choice.go 0, Choice.go 0, Choice.main, Choice.main]

/-! ### Rendering -/

/-- Go `<=` on the bytes of two strings, which on UTF-8 is the lexicographic order
of the code points. -/
def leChars : List Char → List Char → Bool
  | [], _ => true
  | _ :: _, [] => false
  | a :: as, b :: bs =>
    if a.toNat < b.toNat then true
    else if b.toNat < a.toNat then false
    else leChars as bs

/-- Go `a <= b` on strings. -/
def strLe (a b : String) : Bool :=
  leChars a.data b.data

/-- Go `sort.Strings`: the strings in increasing order. -/
def sortStrings (l : List String) : List String :=
  l.insertionSort (fun a b => strLe a b = true)

/-- Go `nodeNames()`: the keys of `g.items`, sorted. -/
def nodeNames (w : World) : List String :=
  sortStrings (w.g.items.map Prod.fst)

/-- The slice `parts` of `String()` for one name, before it is sorted: the names
of the edges of `g.items[name]`.  A missing key reads as the address past the end
of memory, which holds no item. -/
def childNames (w : World) (name : String) : List String :=
  (deref w.mem ((mapGet w.g.items name).getD w.mem.length)).edges.map
    (fun e => (deref w.mem e).name)

/-- Go `String()`: the state after the call and the rendering. -/
def Graph.String (w : World) : World × String :=
  (w, "\r".intercalate ((nodeNames w).map (fun name =>
    name ++ " -> " ++ ", ".intercalate (sortStrings (childNames w name)))))

/-- Items `x`, `y`, `z` at addresses `0` to `2`, all registered. -/
def threeItems : World :=
  AddItems (NewItems World.empty ["x", "y", "z"]) [0, 1, 2]

/-- The graph on `threeItems` after `x → y` then `x → z`. -/
def fanYZ : World :=
  { mem := [⟨0, "x", [1, 2], []⟩, ⟨0, "y", [], [0]⟩, ⟨0, "z", [], [0]⟩],
    g := { items := [("x", 0), ("y", 1), ("z", 2)], edges := [("x", [1, 2])],
           root := some 0 } }

/-- The graph on `threeItems` after `x → z` then `x → y`. -/
def fanZY : World :=
  { mem := [⟨0, "x", [2, 1], []⟩, ⟨0, "y", [], [0]⟩, ⟨0, "z", [], [0]⟩],
    g := { items := [("x", 0), ("y", 1), ("z", 2)], edges := [("x", [2, 1])],
           root := some 0 } }

/-! ### Instrumentation of the cycle check -/

/-- The items the worklist loop of `isCyclic` dequeues, in order, the one on which
it returns `true` included; same bound on the number of dequeues as
`isCyclicLoop`. -/
def dequeuedLoop (mem : List Item) : Nat → List Ptr → List String → List Ptr
  | _, [], _ => []
  | 0, _ :: _, _ => []
  | fuel + 1, current :: stack, visited =>
    if (deref mem current).name ∈ visited then [current]
    else current :: dequeuedLoop mem fuel (stack ++ (deref mem current).parents)
      ((deref mem current).name :: visited)

/-- The items a call `isCyclic(item)` dequeues, in order: none when the guard on
`len(item.parents)` returns at once. -/
def dequeued (mem : List Item) (item : Ptr) : List Ptr :=
  if (deref mem item).parents.length = 0 then []
  else dequeuedLoop mem (mem.length + 2) [item] []

/-- The item a path of parent links leads to from `p`: each step of the path is an
index into the `parents` list of the item reached so far; the empty path stays at
`p`. -/
def follow (mem : List Item) : Ptr → List Nat → Option Ptr
  | p, [] => some p
  | p, j :: rest =>
    match (deref mem p).parents[j]? with
    | some q => follow mem q rest
    | none => none

/-- The item a path leads to from a worklist: the first index selects an entry of
the worklist, the rest is a path of parent links from it. -/
def followFrom (mem : List Item) (stack : List Ptr) : List Nat → Option Ptr
  | [] => none
  | i :: rest =>
    match stack[i]? with
    | some p => follow mem p rest
    | none => none

/-- The path from the worklist `current :: rest` that corresponds to a path from
the next worklist `rest ++ current.parents`. -/
def back (rest : List Ptr) : List Nat → List Nat
  | [] => []
  | i :: path => if i < rest.length then (i + 1) :: path else 0 :: (i - rest.length) :: path

/-! ### Invariants used in the proofs -/

/-- Every stored pointer is an allocated address. -/
def Valid (mem : List Item) : Prop :=
  ∀ q x, (x ∈ (deref mem q).edges ∨ x ∈ (deref mem q).parents) → x < mem.length

/-- Edges and parents mirror each other, counting repetitions. -/
def Mirrored (mem : List Item) : Prop :=
  ∀ p c, (deref mem p).edges.count c = (deref mem c).parents.count p

/-- No item reaches itself through one or more child edges. -/
def Acyclic (mem : List Item) : Prop :=
  ∀ x, ¬ Relation.TransGen (ChildEdge mem) x x

/-- An occurrence of `x` that still leads to a callback on `x` or to its
completion: on the stack, held by the main loop, or in a goroutine. -/
def Pending (s : Walk) (x : Ptr) : Prop :=
  x ∈ s.stack ∨ (∃ ps, s.pc = PC.check x ps) ∨ (∃ ps, s.pc = PC.requeue x ps) ∨
    s.pc = PC.launch x ∨ ∃ gs, (x, gs) ∈ s.goroutines

/-- Invariant of the walk on `diamond` when the callback fails on `b`: `b` is never
visited, every goroutine carries the result the callback gives on its item, the
main loop has not returned, and either `a` or `c` is still pending or `d` is on
the stack or about to be put back on it. -/
def Starved (s : Walk) : Prop :=
  "b" ∉ s.visited ∧
  (∀ x gs r, (x, gs) ∈ s.goroutines → (gs = GState.running r ∨ gs = GState.returned r) →
    r = cbFailAt 1 0 x) ∧
  (s.pc = PC.top → s.stack ≠ [] ∨ s.goroutines = []) ∧
  (s.pc = PC.deq → s.stack ≠ []) ∧
  (∀ r, s.pc ≠ PC.done r) ∧
  (Pending s 0 ∨ Pending s 2 ∨ 3 ∈ s.stack ∨ s.pc = PC.check 3 [1, 2] ∨
    s.pc = PC.requeue 3 [2])

/-- The item the main loop holds in `current` between the dequeue and the launch. -/
def current : PC → Option Ptr
  | PC.check x _ => some x
  | PC.requeue x _ => some x
  | PC.launch x => some x
  | _ => none

/-- Either `x` has no parents or the callback of one of its parents has returned
`nil` in the trace. -/
def Released (w : World) (trace : List Event) (x : Ptr) : Prop :=
  (deref w.mem x).parents = [] ∨ ∃ q ∈ (deref w.mem x).parents, Event.ok q ∈ trace

/-- Invariant of every walk: whatever is on the stack, held by the main loop or in
a goroutine is released; every callback started on a released item; a goroutine
past its callback has logged the result; and a logged `nil` is a result of the
callback. -/
def Ordered (w : World) (cb : Callback) (s : Walk) : Prop :=
  (∀ x ∈ s.stack, Released w s.trace x) ∧
  (∀ x, current s.pc = some x → Released w s.trace x) ∧
  (∀ x gs, (x, gs) ∈ s.goroutines → Released w s.trace x ∧
    (gs = GState.returned none → Event.ok x ∈ s.trace) ∧
    (∀ r, (gs = GState.running r ∨ gs = GState.returned r) → ∃ n, cb n x = r)) ∧
  (∀ pre post x, s.trace = pre ++ Event.start x :: post → Released w pre x) ∧
  (∀ x, Event.ok x ∈ s.trace → ∃ n, cb n x = none)


/-! ### Walks of forests -/

/-- Every registry entry maps the name of an allocated item to that item, and no
name is registered twice. -/
def Registry (w : World) : Prop :=
  (∀ e ∈ w.g.items, e.2 < w.mem.length ∧ e.1 = (deref w.mem e.2).name) ∧
    (w.g.items.map Prod.fst).Nodup

/-- Sum of a weight over the live goroutines. -/
def gsum (f : Ptr × GState → Nat) (l : List (Ptr × GState)) : Nat :=
  (l.map f).sum

/-- Counts a goroutine running `visit` on `x`. -/
def inFlight (x : Ptr) (e : Ptr × GState) : Nat :=
  if e.1 = x then 1 else 0

/-- Counts a goroutine on `x` whose callback has started. -/
def startedIn (x : Ptr) (e : Ptr × GState) : Nat :=
  if e.1 = x ∧ e.2 ≠ GState.spawned then 1 else 0

/-- Number of steps a goroutine still has to take. -/
def gweight (e : Ptr × GState) : Nat :=
  match e.2 with
  | GState.spawned => 3
  | GState.running _ => 2
  | GState.returned _ => 1

/-- Counts `x` when the main loop holds it in `current`. -/
def held (pc : PC) (x : Ptr) : Nat :=
  if current pc = some x then 1 else 0

/-- Number of occurrences of `x` on the stack, in `current` and in goroutines. -/
def tokens (s : Walk) (x : Ptr) : Nat :=
  s.stack.count x + held s.pc x + gsum (inFlight x) s.goroutines

/-- Number of times the name of `x` was added to `visited`. -/
def finished (w : World) (s : Walk) (x : Ptr) : Nat :=
  s.visited.count (deref w.mem x).name

/-- Weight of the position of the main loop in one iteration. -/
def pcWeight : PC → Nat
  | PC.done _ => 0
  | PC.deq => 0
  | PC.top => 1
  | PC.wait => 2
  | PC.len => 3
  | PC.launch _ => 7
  | PC.check _ ps => 8 + ps.length
  | PC.requeue _ _ => 0

/-- Weight of the registered items whose name is not yet in `visited`: ten per child they
will push, plus one. -/
def pendingWeight (w : World) (visited : List String) : Nat :=
  (((w.g.items.map Prod.snd).filter (fun x => (deref w.mem x).name ∉ visited)).map
    (fun x => 10 * (deref w.mem x).edges.length + 1)).sum

/-- Bound on the number of steps a walk of a forest can still take. -/
def walkMeasure (w : World) (s : Walk) : Nat :=
  pendingWeight w s.visited + 10 * s.stack.length + pcWeight s.pc + gsum gweight s.goroutines

/-- A reachable graph in which the children and parents of registered items are
registered and every registered item has at most one parent. -/
def Forest (w : World) : Prop :=
  Reachable w ∧
    (∀ x ∈ w.g.items.map Prod.snd, ∀ q,
      q ∈ (deref w.mem x).edges ∨ q ∈ (deref w.mem x).parents → q ∈ w.g.items.map Prod.snd) ∧
    ∀ x ∈ w.g.items.map Prod.snd, (deref w.mem x).parents.length ≤ 1

/-- Invariant of the walk of a forest with a callback that always succeeds. -/
def ForestInv (w : World) (s : Walk) : Prop :=
  (∀ x, 0 < tokens s x → x ∈ w.g.items.map Prod.snd) ∧
  (∀ x, x ∈ w.g.items.map Prod.snd → (deref w.mem x).parents = [] →
    tokens s x + finished w s x = 1) ∧
  (∀ x p, x ∈ w.g.items.map Prod.snd → (deref w.mem x).parents = [p] →
    tokens s x + finished w s x = finished w s p) ∧
  (∀ x, x ∈ w.g.items.map Prod.snd → tokens s x + finished w s x ≤ 1) ∧
  (∀ x ps, s.pc = PC.check x ps → ∀ q ∈ ps, (deref w.mem q).name ∈ s.visited) ∧
  (∀ x ps, s.pc ≠ PC.requeue x ps) ∧
  (s.pc = PC.top → s.stack ≠ [] ∨ s.goroutines = []) ∧
  (s.pc = PC.deq → s.stack ≠ []) ∧
  (∀ r, s.pc = PC.done r → s.stack = [] ∧ s.goroutines = []) ∧
  (∀ x gs r, (x, gs) ∈ s.goroutines → (gs = GState.running r ∨ gs = GState.returned r) →
    r = none) ∧
  (∀ x, x ∈ w.g.items.map Prod.snd →
    s.trace.count (Event.start x) = gsum (startedIn x) s.goroutines + finished w s x)

/-- The ten items of the test, `item 0` to `item 9`, all registered. -/
def testItems : World :=
  AddItems (NewItems World.empty ["item 0", "item 1", "item 2", "item 3", "item 4",
    "item 5", "item 6", "item 7", "item 8", "item 9"]) [0, 1, 2, 3, 4, 5, 6, 7, 8, 9]

/-- The graph the test builds: `1 → 2`, `1 → 3`, `1 → 4`, `4 → 5`, the calls
`4 → 1` and `4 → 4` having been rejected. -/
def testTree : World :=
  { mem := [⟨0, "item 0", [], []⟩, ⟨0, "item 1", [2, 3, 4], []⟩, ⟨0, "item 2", [], [1]⟩,
      ⟨0, "item 3", [], [1]⟩, ⟨0, "item 4", [5], [1]⟩, ⟨0, "item 5", [], [4]⟩,
      ⟨0, "item 6", [], []⟩, ⟨0, "item 7", [], []⟩, ⟨0, "item 8", [], []⟩,
      ⟨0, "item 9", [], []⟩],
    g := { items := [("item 0", 0), ("item 1", 1), ("item 2", 2), ("item 3", 3),
             ("item 4", 4), ("item 5", 5), ("item 6", 6), ("item 7", 7), ("item 8", 8),
             ("item 9", 9)],
           edges := [("item 1", [2, 3, 4]), ("item 4", [5])],
           root := some 0 } }
theorem deref_set (mem : List Item) (p : Ptr) (x : Item) (q : Ptr) (hp : p < mem.length) :
    deref (mem.set p x) q = if q = p then x else deref mem q := by
  unfold deref
  rw [List.getD_eq_getElem?_getD, List.getD_eq_getElem?_getD, List.getElem?_set]
  by_cases h : q = p
  · subst h; simp [hp]
  · have h' : ¬ p = q := fun e => h e.symm
    simp [h, h']

theorem mem_ext (m1 m2 : List Item) (hl : m1.length = m2.length)
    (h : ∀ q, q < m1.length → deref m1 q = deref m2 q) : m1 = m2 := by
  apply List.ext_getElem hl
  intro n h1 h2
  have := h n h1
  unfold deref at this
  rw [List.getD_eq_getElem?_getD, List.getD_eq_getElem?_getD] at this
  simpa [List.getElem?_eq_getElem h1, List.getElem?_eq_getElem h2] using this

@[simp] theorem setParents_length (mem : List Item) (p : Ptr) (ps : List Ptr) :
    (setParents mem p ps).length = mem.length := by simp [setParents]

@[simp] theorem setEdges_length (mem : List Item) (p : Ptr) (es : List Ptr) :
    (setEdges mem p es).length = mem.length := by simp [setEdges]

theorem deref_setParents (mem : List Item) (p : Ptr) (ps : List Ptr) (q : Ptr)
    (hp : p < mem.length) :
    deref (setParents mem p ps) q
      = if q = p then { deref mem p with parents := ps } else deref mem q := by
  unfold setParents; exact deref_set mem p _ q hp

theorem deref_setEdges (mem : List Item) (p : Ptr) (es : List Ptr) (q : Ptr)
    (hp : p < mem.length) :
    deref (setEdges mem p es) q
      = if q = p then { deref mem p with edges := es } else deref mem q := by
  unfold setEdges; exact deref_set mem p _ q hp

@[simp] theorem sliceInit_append_singleton {α : Type} (l : List α) (x : α) :
    sliceInit (l ++ [x]) = l := by
  simp [sliceInit]

@[simp] theorem link_length (w : World) (i1 i2 : Ptr) :
    (link w i1 i2).mem.length = w.mem.length := by
  simp [link]

@[simp] theorem link_items (w : World) (i1 i2 : Ptr) : (link w i1 i2).g.items = w.g.items := rfl

@[simp] theorem link_root (w : World) (i1 i2 : Ptr) : (link w i1 i2).g.root = w.g.root := rfl

@[simp] theorem unlink_items (w : World) (i1 i2 : Ptr) : (unlink w i1 i2).g.items = w.g.items := rfl

@[simp] theorem unlink_root (w : World) (i1 i2 : Ptr) : (unlink w i1 i2).g.root = w.g.root := rfl

theorem deref_link (w : World) (i1 i2 q : Ptr) (h1 : i1 < w.mem.length)
    (h2 : i2 < w.mem.length) :
    deref (link w i1 i2).mem q =
      { deref w.mem q with
        edges := (deref w.mem q).edges ++ (if q = i1 then [i2] else []),
        parents := (deref w.mem q).parents ++ (if q = i2 then [i1] else []) } := by
  unfold link
  simp only []
  rw [deref_setEdges _ _ _ _ (by simpa using h1), deref_setParents _ _ _ _ h2,
    deref_setParents _ _ _ _ h2]
  by_cases a : q = i1 <;> by_cases b : q = i2 <;> by_cases c : i1 = i2 <;>
    simp_all

theorem unlink_link_mem (w : World) (i1 i2 : Ptr) (h1 : i1 < w.mem.length)
    (h2 : i2 < w.mem.length) : (unlink (link w i1 i2) i1 i2).mem = w.mem := by
  apply mem_ext
  · simp [unlink]
  · intro q _
    have l1 : i1 < (link w i1 i2).mem.length := by simpa using h1
    have l2 : i2 < (link w i1 i2).mem.length := by simpa using h2
    unfold unlink
    simp only []
    rw [deref_setEdges _ _ _ _ (by simpa using l1), deref_setParents _ _ _ _ l2,
      deref_setParents _ _ _ _ l2]
    simp only [deref_link w i1 i2 _ h1 h2]
    by_cases a : q = i1 <;> by_cases b : q = i2 <;> by_cases c : i1 = i2 <;>
      simp_all

theorem deref_name_mem (mem : List Item) (p : Ptr) : (deref mem p).name ∈ allNames mem := by
  unfold deref allNames
  rw [List.getD_eq_getElem?_getD]
  by_cases h : p < mem.length
  · simp only [List.getElem?_eq_getElem h, Option.getD_some]
    exact List.mem_cons_of_mem _ (List.mem_map_of_mem _ (List.getElem_mem h))
  · simp [List.getElem?_eq_none (Nat.le_of_not_lt h)]

theorem isCyclicLoop_isSome (mem : List Item) :
    ∀ (fuel : Nat) (stack : List Ptr) (visited : List String),
      visited.Nodup → visited ⊆ allNames mem →
      (allNames mem).length + 1 ≤ fuel + visited.length →
      (isCyclicLoop mem fuel stack visited).isSome = true := by
  intro fuel
  induction fuel with
  | zero =>
    intro stack visited hn hs hl
    have := (List.subperm_of_subset hn hs).length_le
    omega
  | succ n ih =>
    intro stack visited hn hs hl
    cases stack with
    | nil => simp [isCyclicLoop]
    | cons cur rest =>
      unfold isCyclicLoop
      by_cases hv : (deref mem cur).name ∈ visited
      · simp [hv]
      · simp only [hv, if_false]
        apply ih
        · exact List.nodup_cons.mpr ⟨hv, hn⟩
        · intro x hx
          rcases List.mem_cons.mp hx with rfl | hx
          · exact deref_name_mem mem cur
          · exact hs hx
        · simp only [List.length_cons]; omega

theorem isCyclic_isSome (mem : List Item) (item : Ptr) : (isCyclic mem item).isSome = true := by
  unfold isCyclic
  split
  · rfl
  · apply isCyclicLoop_isSome
    · exact List.nodup_nil
    · exact List.nil_subset _
    · simp [allNames]

theorem AddItemRelation_eq (w : World) (i1 i2 : Ptr) :
    (isCyclic (link w i1 i2).mem i1 = some true ∧
      AddItemRelation w i1 i2 = some (unlink (link w i1 i2) i1 i2, some "cyclic")) ∨
    (isCyclic (link w i1 i2).mem i1 = some false ∧
      AddItemRelation w i1 i2 = some (link w i1 i2, none)) := by
  have hs := isCyclic_isSome (link w i1 i2).mem i1
  unfold AddItemRelation
  rcases hb : isCyclic (link w i1 i2).mem i1 with _ | b
  · simp [hb] at hs
  · cases b <;> simp

/-! ### Structural invariants of reachable states -/

theorem deref_of_le (mem : List Item) (q : Ptr) (h : mem.length ≤ q) :
    deref mem q = ⟨0, "", [], []⟩ := by
  unfold deref
  rw [List.getD_eq_getElem?_getD, List.getElem?_eq_none h]
  rfl

theorem deref_append_lt (mem : List Item) (it : Item) (q : Ptr) (h : q < mem.length) :
    deref (mem ++ [it]) q = deref mem q := by
  unfold deref
  rw [List.getD_eq_getElem?_getD, List.getD_eq_getElem?_getD, List.getElem?_append_left h]

theorem deref_append_self (mem : List Item) (it : Item) :
    deref (mem ++ [it]) mem.length = it := by
  unfold deref
  rw [List.getD_eq_getElem?_getD]
  simp

theorem deref_newItem (w : World) (n : String) (v : Nat) (q : Ptr) :
    deref (NewItem w n v).1.mem q
      = if q = w.mem.length then ⟨v, n, [], []⟩ else deref w.mem q := by
  unfold NewItem
  simp only []
  by_cases h : q = w.mem.length
  · subst h; simp [deref_append_self]
  · simp only [h, if_false]
    rcases Nat.lt_or_gt_of_ne h with h | h
    · exact deref_append_lt _ _ _ h
    · rw [deref_of_le _ _ (by simp; omega), deref_of_le _ _ (by omega)]

theorem AddItem_mem (w : World) (i : Ptr) : (AddItem w i).1.mem = w.mem := by
  unfold AddItem
  split
  · rfl
  · simp only []; split <;> rfl

theorem Valid_newItem (w : World) (n : String) (v : Nat) (h : Valid w.mem) :
    Valid (NewItem w n v).1.mem := by
  intro q x hx
  rw [deref_newItem] at hx
  have hl : (NewItem w n v).1.mem.length = w.mem.length + 1 := by simp [NewItem]
  by_cases hq : q = w.mem.length
  · simp [hq] at hx
  · simp only [hq, if_false] at hx
    rw [hl]
    exact Nat.lt_succ_of_lt (h q x hx)

theorem Mirrored_newItem (w : World) (n : String) (v : Nat) (hv : Valid w.mem)
    (h : Mirrored w.mem) : Mirrored (NewItem w n v).1.mem := by
  intro p c
  rw [deref_newItem, deref_newItem]
  by_cases hp : p = w.mem.length <;> by_cases hc : c = w.mem.length
  · simp [hp, hc]
  · simp only [hp, hc, if_true, if_false, List.count_nil]
    symm
    apply List.count_eq_zero_of_not_mem
    intro hm
    exact Nat.lt_irrefl _ (hv c w.mem.length (Or.inr (hp ▸ hm)))
  · simp only [hp, hc, if_true, if_false, List.count_nil]
    apply List.count_eq_zero_of_not_mem
    intro hm
    exact Nat.lt_irrefl _ (hv p w.mem.length (Or.inl (hc ▸ hm)))
  · simp only [hp, hc, if_false]
    exact h p c

theorem ChildEdge_newItem (w : World) (n : String) (v : Nat) (p c : Ptr) :
    ChildEdge (NewItem w n v).1.mem p c → ChildEdge w.mem p c := by
  unfold ChildEdge
  rw [deref_newItem]
  by_cases hp : p = w.mem.length
  · simp [hp]
  · simp [hp]

theorem Acyclic_newItem (w : World) (n : String) (v : Nat) (h : Acyclic w.mem) :
    Acyclic (NewItem w n v).1.mem := by
  intro x hx
  exact h x (Relation.TransGen.mono (ChildEdge_newItem w n v) hx)

theorem Valid_link (w : World) (i1 i2 : Ptr) (h1 : i1 < w.mem.length) (h2 : i2 < w.mem.length)
    (h : Valid w.mem) : Valid (link w i1 i2).mem := by
  intro q x hx
  rw [deref_link w i1 i2 q h1 h2] at hx
  simp only [List.mem_append, link_length] at hx ⊢
  rcases hx with (hx | hx) | (hx | hx)
  · exact h q x (Or.inl hx)
  · by_cases a : q = i1
    · simp only [a, if_true, List.mem_singleton] at hx
      rw [hx]; exact h2
    · simp [a] at hx
  · exact h q x (Or.inr hx)
  · by_cases a : q = i2
    · simp only [a, if_true, List.mem_singleton] at hx
      rw [hx]; exact h1
    · simp [a] at hx

theorem Mirrored_link (w : World) (i1 i2 : Ptr) (h1 : i1 < w.mem.length)
    (h2 : i2 < w.mem.length) (h : Mirrored w.mem) : Mirrored (link w i1 i2).mem := by
  intro p c
  rw [deref_link w i1 i2 p h1 h2, deref_link w i1 i2 c h1 h2]
  simp only [List.count_append, h p c]
  by_cases a : p = i1 <;> by_cases b : c = i2 <;> simp [a, b, List.count_cons]

theorem ChildEdge_link (w : World) (i1 i2 : Ptr) (h1 : i1 < w.mem.length)
    (h2 : i2 < w.mem.length) (p c : Ptr) :
    ChildEdge (link w i1 i2).mem p c ↔ ChildEdge w.mem p c ∨ (p = i1 ∧ c = i2) := by
  unfold ChildEdge
  rw [deref_link w i1 i2 p h1 h2]
  by_cases a : p = i1 <;> simp [a]

theorem ParentLink_iff_ChildEdge (mem : List Item) (h : Mirrored mem) (c p : Ptr) :
    ParentLink mem c p ↔ ChildEdge mem p c := by
  unfold ParentLink ChildEdge
  rw [← List.count_pos_iff, ← List.count_pos_iff, h p c]
/-! ### The cycle check -/

theorem isCyclicLoop_false (mem : List Item) :
    ∀ (fuel : Nat) (stack : List Ptr) (visited : List String),
      isCyclicLoop mem fuel stack visited = some false →
      ∀ p ∈ stack, ∀ q, Relation.ReflTransGen (ParentLink mem) p q →
        (deref mem q).name ∉ visited := by
  intro fuel
  induction fuel with
  | zero =>
    intro stack visited h p hp
    cases stack with
    | nil => cases hp
    | cons cur rest => simp [isCyclicLoop] at h
  | succ n ih =>
    intro stack visited h p hp q hq
    cases stack with
    | nil => cases hp
    | cons cur rest =>
      unfold isCyclicLoop at h
      by_cases hv : (deref mem cur).name ∈ visited
      · simp [hv] at h
      · simp only [hv, if_false] at h
        have key := ih _ _ h
        rcases List.mem_cons.mp hp with rfl | hp
        · rcases Relation.ReflTransGen.cases_head hq with rfl | ⟨c, hc, hcq⟩
          · exact hv
          · intro hm
            exact key c (List.mem_append_right _ hc) q hcq (List.mem_cons_of_mem _ hm)
        · intro hm
          exact key p (List.mem_append_left _ hp) q hq (List.mem_cons_of_mem _ hm)

theorem isCyclic_false_no_cycle (mem : List Item) (item : Ptr)
    (h : isCyclic mem item = some false) :
    ¬ Relation.TransGen (ParentLink mem) item item := by
  intro hc
  rcases Relation.TransGen.head'_iff.mp hc with ⟨c, hc1, hc2⟩
  unfold isCyclic at h
  have hne : ¬ (deref mem item).parents.length = 0 := by
    intro h0
    have : (deref mem item).parents = [] := List.length_eq_zero.mp h0
    unfold ParentLink at hc1
    rw [this] at hc1
    cases hc1
  simp only [hne, if_false] at h
  unfold isCyclicLoop at h
  simp only [List.not_mem_nil, if_false, List.nil_append] at h
  exact isCyclicLoop_false mem _ _ _ h c hc1 item hc2 (List.mem_singleton.mpr rfl)

theorem transGen_insert {α : Type} (r s : α → α → Prop) (u v : α)
    (hs : ∀ a b, s a b → r a b ∨ (a = u ∧ b = v)) (hr : ∀ a b, r a b → s a b) :
    ∀ x y, Relation.TransGen s x y →
      Relation.TransGen r x y ∨
        (Relation.ReflTransGen s x u ∧ Relation.ReflTransGen s v y) := by
  intro x y h
  induction h with
  | single hxy =>
    rcases hs _ _ hxy with h | ⟨rfl, rfl⟩
    · exact Or.inl (Relation.TransGen.single h)
    · exact Or.inr ⟨Relation.ReflTransGen.refl, Relation.ReflTransGen.refl⟩
  | tail hxy hyz ih =>
    rcases ih with ih | ⟨ih1, ih2⟩
    · rcases hs _ _ hyz with h | ⟨rfl, rfl⟩
      · exact Or.inl (Relation.TransGen.tail ih h)
      · exact Or.inr ⟨(Relation.TransGen.mono hr ih).to_reflTransGen,
          Relation.ReflTransGen.refl⟩
    · exact Or.inr ⟨ih1, Relation.ReflTransGen.tail ih2 hyz⟩

theorem ParentLink_eq_swap (mem : List Item) (h : Mirrored mem) :
    ParentLink mem = Function.swap (ChildEdge mem) := by
  funext c p
  exact propext (ParentLink_iff_ChildEdge mem h c p)

theorem Acyclic_link (w : World) (i1 i2 : Ptr) (h1 : i1 < w.mem.length)
    (h2 : i2 < w.mem.length) (hm : Mirrored w.mem) (ha : Acyclic w.mem)
    (hc : isCyclic (link w i1 i2).mem i1 = some false) : Acyclic (link w i1 i2).mem := by
  intro x hx
  have hins := transGen_insert (ChildEdge w.mem) (ChildEdge (link w i1 i2).mem) i1 i2
    (fun a b hab => (ChildEdge_link w i1 i2 h1 h2 a b).mp hab)
    (fun a b hab => (ChildEdge_link w i1 i2 h1 h2 a b).mpr (Or.inl hab)) x x hx
  rcases hins with hold | ⟨hxu, hvx⟩
  · exact ha x hold
  · have hedge : ChildEdge (link w i1 i2).mem i1 i2 :=
      (ChildEdge_link w i1 i2 h1 h2 i1 i2).mpr (Or.inr ⟨rfl, rfl⟩)
    have hcyc : Relation.TransGen (ChildEdge (link w i1 i2).mem) i1 i1 :=
      Relation.TransGen.head' hedge (hvx.trans hxu)
    apply isCyclic_false_no_cycle _ _ hc
    rw [ParentLink_eq_swap _ (Mirrored_link w i1 i2 h1 h2 hm)]
    exact Relation.transGen_swap.mpr hcyc

theorem AddItemRelation_mem (w w1 : World) (i1 i2 : Ptr) (e : Option String)
    (h1 : i1 < w.mem.length) (h2 : i2 < w.mem.length)
    (h : AddItemRelation w i1 i2 = some (w1, e)) :
    (e = some "cyclic" ∧ isCyclic (link w i1 i2).mem i1 = some true ∧ w1.mem = w.mem ∧
        w1.g.items = w.g.items ∧ w1.g.root = w.g.root) ∨
      (e = none ∧ isCyclic (link w i1 i2).mem i1 = some false ∧ w1 = link w i1 i2) := by
  rcases AddItemRelation_eq w i1 i2 with ⟨hc, heq⟩ | ⟨hc, heq⟩
  · rw [heq] at h
    simp only [Option.some.injEq, Prod.mk.injEq] at h
    rcases h with ⟨rfl, rfl⟩
    exact Or.inl ⟨rfl, hc, unlink_link_mem w i1 i2 h1 h2, rfl, rfl⟩
  · rw [heq] at h
    simp only [Option.some.injEq, Prod.mk.injEq] at h
    rcases h with ⟨rfl, rfl⟩
    exact Or.inr ⟨rfl, hc, rfl⟩

theorem Reachable_inv (w : World) (h : Reachable w) :
    Valid w.mem ∧ Mirrored w.mem ∧ Acyclic w.mem := by
  induction h with
  | newGraph =>
    refine ⟨?_, ?_, ?_⟩
    · intro q x hx
      simp [World.empty, deref] at hx
    · intro p c
      simp [World.empty, deref]
    · intro x hx
      rcases Relation.TransGen.head'_iff.mp hx with ⟨c, hc, _⟩
      simp [World.empty, ChildEdge, deref] at hc
  | newItem n v _ ih =>
    exact ⟨Valid_newItem _ n v ih.1, Mirrored_newItem _ n v ih.1 ih.2.1,
      Acyclic_newItem _ n v ih.2.2⟩
  | addItem i _ _ ih =>
    rw [AddItem_mem]
    exact ih
  | addItemRelation i1 i2 e _ h1 h2 heq ih =>
    rcases AddItemRelation_mem _ _ i1 i2 e h1 h2 heq with ⟨_, _, hm, _⟩ | ⟨_, hc, rfl⟩
    · rw [hm]; exact ih
    · exact ⟨Valid_link _ i1 i2 h1 h2 ih.1, Mirrored_link _ i1 i2 h1 h2 ih.2.1,
        Acyclic_link _ i1 i2 h1 h2 ih.2.1 ih.2.2 hc⟩
/-! ### Sequences of calls -/

theorem mapSet_of_absent {α : Type} (m : List (String × α)) (k : String) (v : α)
    (h : mapGet m k = none) : mapSet m k v = m ++ [(k, v)] := by
  unfold mapSet
  unfold mapGet at h
  rw [h]

theorem mapGet_append_singleton {α : Type} (m : List (String × α)) (k k1 : String) (v : α) :
    mapGet (m ++ [(k1, v)]) k
      = match mapGet m k with
        | some x => some x
        | none => if k = k1 then some v else none := by
  unfold mapGet
  induction m with
  | nil =>
    by_cases h : k = k1
    · subst h; simp [List.lookup]
    · have : (k == k1) = false := by simpa using h
      simp [List.lookup, this, h]
  | cons hd tl ih =>
    rcases hd with ⟨a, b⟩
    simp only [List.cons_append, List.lookup]
    cases hab : (k == a)
    · simpa using ih
    · simp

theorem AddItems_cons (w : World) (i : Ptr) (rest : List Ptr) :
    AddItems w (i :: rest) = AddItems (AddItem w i).1 rest := rfl

theorem AddItem_cases (w : World) (n : Ptr) :
    ((mapGet w.g.items (deref w.mem n).name).isSome = true ∧
        AddItem w n = (w, some "item not unique")) ∨
      (mapGet w.g.items (deref w.mem n).name = none ∧ (AddItem w n).2 = none ∧
        (AddItem w n).1.mem = w.mem ∧ (AddItem w n).1.g.edges = w.g.edges ∧
        (AddItem w n).1.g.items = w.g.items ++ [((deref w.mem n).name, n)] ∧
        (AddItem w n).1.g.root = if w.g.items.length = 0 then some n else w.g.root) := by
  unfold AddItem
  rcases hg : mapGet w.g.items (deref w.mem n).name with _ | x
  · right
    simp only [mapSet_of_absent _ _ _ hg, List.length_append, List.length_singleton]
    by_cases h0 : w.g.items.length = 0
    · simp [h0]
    · have : ¬ (w.g.items.length + 1 = 1) := by omega
      simp [h0, this]
  · left
    simp

theorem Reachable_NewItems (w : World) (names : List String) (h : Reachable w) :
    Reachable (NewItems w names) := by
  induction names generalizing w with
  | nil => exact h
  | cons n rest ih => exact ih _ (Reachable.newItem n 0 h)

theorem Reachable_AddItems (w : World) (items : List Ptr) (h : Reachable w)
    (hv : ∀ i ∈ items, i < w.mem.length) : Reachable (AddItems w items) := by
  induction items generalizing w with
  | nil => exact h
  | cons i rest ih =>
    rw [AddItems_cons]
    apply ih _ (Reachable.addItem i h (hv i (List.mem_cons_self _ _)))
    intro j hj
    rw [AddItem_mem]
    exact hv j (List.mem_cons_of_mem _ hj)

theorem AddItemRelation_length (w w1 : World) (i1 i2 : Ptr) (e : Option String)
    (h1 : i1 < w.mem.length) (h2 : i2 < w.mem.length)
    (h : AddItemRelation w i1 i2 = some (w1, e)) : w1.mem.length = w.mem.length := by
  rcases AddItemRelation_mem w w1 i1 i2 e h1 h2 h with ⟨_, _, hm, _⟩ | ⟨_, _, rfl⟩
  · rw [hm]
  · simp

theorem Reachable_AddItemRelations (calls : List (Ptr × Ptr)) :
    ∀ (w w1 : World) (es : List (Option String)), Reachable w →
      (∀ c ∈ calls, c.1 < w.mem.length ∧ c.2 < w.mem.length) →
      AddItemRelations w calls = some (w1, es) → Reachable w1 := by
  induction calls with
  | nil =>
    intro w w1 es h _ heq
    simp only [AddItemRelations, Option.some.injEq, Prod.mk.injEq] at heq
    rw [← heq.1]; exact h
  | cons c rest ih =>
    intro w w1 es h hv heq
    rcases c with ⟨i1, i2⟩
    have hc := hv (i1, i2) (List.mem_cons_self _ _)
    unfold AddItemRelations at heq
    rcases hr : AddItemRelation w i1 i2 with _ | ⟨w2, e⟩
    · simp [hr] at heq
    · simp only [hr] at heq
      rcases hr2 : AddItemRelations w2 rest with _ | ⟨w3, es2⟩
      · simp [hr2] at heq
      · simp only [hr2, Option.some.injEq, Prod.mk.injEq] at heq
        rw [← heq.1]
        apply ih w2 w3 es2 (Reachable.addItemRelation i1 i2 e h hc.1 hc.2 hr) _ hr2
        intro c1 hc1
        rw [AddItemRelation_length w w2 i1 i2 e hc.1 hc.2 hr]
        exact hv c1 (List.mem_cons_of_mem _ hc1)

theorem Reachable_fiveItems : Reachable fiveItems :=
  Reachable_AddItems _ _ (Reachable_NewItems _ _ Reachable.newGraph) (by decide)

theorem diamondE_built :
    AddItemRelations fiveItems [(0, 1), (0, 2), (1, 3), (2, 3)]
      = some (diamondE, [none, none, none, none]) := by
  decide

theorem Reachable_diamondE : Reachable diamondE :=
  Reachable_AddItemRelations _ _ _ _ Reachable_fiveItems (by decide) diamondE_built
theorem AddItemRelation_rejects_cycle (w : World) (u v : Ptr) (hu : u < w.mem.length)
    (hv : v < w.mem.length) (hm : Mirrored w.mem)
    (h : u = v ∨ Relation.ReflTransGen (ChildEdge w.mem) v u) :
    ∃ w1, AddItemRelation w u v = some (w1, some "cyclic") := by
  have hreach : Relation.ReflTransGen (ChildEdge w.mem) v u := by
    rcases h with rfl | h
    · exact Relation.ReflTransGen.refl
    · exact h
  rcases AddItemRelation_eq w u v with ⟨_, heq⟩ | ⟨hc, _⟩
  · exact ⟨_, heq⟩
  · exfalso
    apply isCyclic_false_no_cycle _ _ hc
    rw [ParentLink_eq_swap _ (Mirrored_link w u v hu hv hm)]
    apply Relation.transGen_swap.mpr
    apply Relation.TransGen.head' ((ChildEdge_link w u v hu hv u v).mpr (Or.inr ⟨rfl, rfl⟩))
    exact Relation.ReflTransGen.mono
      (fun a b hab => (ChildEdge_link w u v hu hv a b).mpr (Or.inl hab)) hreach

theorem successes_cons_none (c : Ptr × Ptr) (rest : List (Ptr × Ptr))
    (es : List (Option String)) :
    successes (c :: rest) (none :: es) = c :: successes rest es := by
  simp [successes]

theorem successes_cons_some (c : Ptr × Ptr) (rest : List (Ptr × Ptr)) (e : String)
    (es : List (Option String)) :
    successes (c :: rest) (some e :: es) = successes rest es := by
  simp [successes]

theorem AddItemRelations_spec (calls : List (Ptr × Ptr)) :
    ∀ w : World, (∀ c ∈ calls, c.1 < w.mem.length ∧ c.2 < w.mem.length) →
      ∃ w1 es, AddItemRelations w calls = some (w1, es) ∧ es.length = calls.length ∧
        ∀ item : Ptr,
          (deref w1.mem item).edges = (deref w.mem item).edges ++
            ((successes calls es).filter (fun c => c.1 = item)).map (fun c => c.2) ∧
          (deref w1.mem item).parents = (deref w.mem item).parents ++
            ((successes calls es).filter (fun c => c.2 = item)).map (fun c => c.1) := by
  induction calls with
  | nil =>
    intro w _
    exact ⟨w, [], rfl, rfl, fun item => by simp [successes]⟩
  | cons c rest ih =>
    intro w hv
    rcases c with ⟨i1, i2⟩
    have hc := hv (i1, i2) (List.mem_cons_self _ _)
    rcases AddItemRelation_eq w i1 i2 with ⟨_, heq⟩ | ⟨_, heq⟩
    · have hm := unlink_link_mem w i1 i2 hc.1 hc.2
      rcases ih (unlink (link w i1 i2) i1 i2) (by
        intro c1 hc1; rw [hm]; exact hv c1 (List.mem_cons_of_mem _ hc1)) with
        ⟨w1, es, hrun, hlen, hs⟩
      refine ⟨w1, some "cyclic" :: es, ?_, by simp [hlen], ?_⟩
      · simp [AddItemRelations, heq, hrun]
      · intro item
        have := hs item
        rw [hm] at this
        rw [successes_cons_some]
        exact this
    · rcases ih (link w i1 i2) (by
        intro c1 hc1; rw [link_length]; exact hv c1 (List.mem_cons_of_mem _ hc1)) with
        ⟨w1, es, hrun, hlen, hs⟩
      refine ⟨w1, none :: es, ?_, by simp [hlen], ?_⟩
      · simp [AddItemRelations, heq, hrun]
      · intro item
        have := hs item
        rw [deref_link w i1 i2 item hc.1 hc.2] at this
        rw [successes_cons_none, this.1, this.2]
        have ea : (item = i1) = (i1 = item) := propext eq_comm
        have eb : (item = i2) = (i2 = item) := propext eq_comm
        simp only [ea, eb]
        by_cases a : i1 = item <;> by_cases b : i2 = item <;>
          simp [List.filter_cons, a, b]

theorem map_replace_cons {α : Type} (a : String) (b : α) (tl : List (String × α))
    (k : String) (v : α) :
    ((a, b) :: tl).map (fun e => if e.1 = k then (k, v) else e)
      = (if a = k then (k, v) else (a, b)) ::
          tl.map (fun e => if e.1 = k then (k, v) else e) := rfl

theorem lookup_map_replace_ne {α : Type} (m : List (String × α)) (k k1 : String) (v : α)
    (h : k1 ≠ k) :
    (m.map (fun e => if e.1 = k then (k, v) else e)).lookup k1 = m.lookup k1 := by
  induction m with
  | nil => rfl
  | cons hd tl ih =>
    rcases hd with ⟨a, b⟩
    rw [map_replace_cons]
    by_cases ha : a = k
    · subst ha
      have hb : (k1 == a) = false := by simpa using h
      rw [if_pos rfl, List.lookup_cons, List.lookup_cons, hb]
      exact ih
    · rw [if_neg ha, List.lookup_cons, List.lookup_cons, ih]

theorem lookup_map_replace_self {α : Type} (m : List (String × α)) (k : String) (v : α)
    (h : (m.lookup k).isSome = true) :
    (m.map (fun e => if e.1 = k then (k, v) else e)).lookup k = some v := by
  induction m with
  | nil => simp [List.lookup] at h
  | cons hd tl ih =>
    rcases hd with ⟨a, b⟩
    rw [map_replace_cons]
    by_cases ha : a = k
    · subst ha
      have hb : (a == a) = true := by simp
      rw [if_pos rfl, List.lookup_cons, hb]
    · have hka : (k == a) = false := by
        simpa using fun e : k = a => ha e.symm
      rw [List.lookup_cons, hka] at h
      rw [if_neg ha, List.lookup_cons, hka]
      exact ih h

theorem mapGet_mapSet {α : Type} (m : List (String × α)) (k k1 : String) (v : α) :
    mapGet (mapSet m k v) k1 = if k1 = k then some v else mapGet m k1 := by
  unfold mapSet
  rcases hk : m.lookup k with _ | x
  · simp only []
    rw [mapGet_append_singleton]
    by_cases h : k1 = k
    · subst h
      simp [mapGet, hk]
    · simp only [h, if_false]
      rcases hg : mapGet m k1 with _ | y <;> rfl
  · simp only []
    by_cases h : k1 = k
    · subst h
      simp only [if_true]
      exact lookup_map_replace_self m k1 v (by rw [hk]; rfl)
    · simp only [h, if_false]
      exact lookup_map_replace_ne m k k1 v h

theorem unlink_link_edges (w : World) (i1 i2 : Ptr) (h1 : i1 < w.mem.length)
    (h2 : i2 < w.mem.length) (k : String) :
    (mapGet (unlink (link w i1 i2) i1 i2).g.edges k).getD []
      = (mapGet w.g.edges k).getD [] := by
  have hname : (deref (link w i1 i2).mem i1).name = (deref w.mem i1).name := by
    rw [deref_link w i1 i2 i1 h1 h2]
  unfold unlink
  simp only [hname]
  unfold link
  simp only [mapGet_mapSet, if_true, Option.getD_some, sliceInit_append_singleton]
  by_cases h : k = (deref w.mem i1).name
  · simp [h]
  · simp [h]
theorem AddItems_length (items : List Ptr) :
    ∀ w : World, (items.map (fun i => (deref w.mem i).name)).Nodup →
      (∀ i ∈ items, mapGet w.g.items (deref w.mem i).name = none) →
      (AddItems w items).g.items.length = w.g.items.length + items.length ∧
        (AddItems w items).mem = w.mem := by
  induction items with
  | nil => intro w _ _; exact ⟨rfl, rfl⟩
  | cons i rest ih =>
    intro w hn hf
    rw [AddItems_cons]
    rcases AddItem_cases w i with ⟨hs, _⟩ | ⟨_, _, hmem, _, hitems, _⟩
    · rw [hf i (List.mem_cons_self _ _)] at hs
      cases hs
    · rw [List.map_cons, List.nodup_cons] at hn
      have key := ih (AddItem w i).1 (by rw [hmem]; exact hn.2) (by
        intro j hj
        rw [hmem, hitems, mapGet_append_singleton, hf j (List.mem_cons_of_mem _ hj)]
        have hne : ¬ (deref w.mem j).name = (deref w.mem i).name := by
          intro e
          apply hn.1
          rw [← e]
          exact List.mem_map_of_mem (fun i => (deref w.mem i).name) hj
        simp [hne])
      have hl : (AddItem w i).1.g.items.length = w.g.items.length + 1 := by
        rw [hitems]; simp
      refine ⟨?_, by rw [key.2, hmem]⟩
      rw [key.1, hl, List.length_cons]
      omega

/-! ### Settled claims -/

/-- C1: in every state reached from `NewGraph` by `NewItem`, `AddItem` and
`AddItemRelation` calls (rejected calls included), no item is reachable from
itself through one or more child edges; a self-loop is a path of length one.
The names need not even be distinct. -/
theorem acyclic_invariant (w : World) (h : Reachable w) (x : Ptr) :
    ¬ Relation.TransGen (ChildEdge w.mem) x x :=
  (Reachable_inv w h).2.2 x

theorem acyclic_invariant_witness :
    Reachable diamondE ∧ ¬ Relation.TransGen (ChildEdge diamondE.mem) 3 3 :=
  ⟨Reachable_diamondE, acyclic_invariant diamondE Reachable_diamondE 3⟩

/-- C2 fails on the code: in the diamond `a → b`, `a → c`, `b → d`, `c → d`,
built through `AddItem` and `AddItemRelation` on distinctly named items, the call
`AddItemRelation(d, e)` returns the error `cyclic` although `d ≠ e` and `d` is not
reachable from `e` through child edges. -/
theorem diamond_child_rejected :
    Reachable diamondE ∧ (diamondE.mem.map Item.name).Nodup ∧
      (AddItemRelation diamondE 3 4).map Prod.snd = some (some "cyclic") ∧
      (3 : Ptr) ≠ 4 ∧ ¬ Relation.ReflTransGen (ChildEdge diamondE.mem) 4 3 := by
  refine ⟨Reachable_diamondE, by decide, by decide, by decide, ?_⟩
  intro h
  rcases Relation.ReflTransGen.cases_head h with h | ⟨c, hc, _⟩
  · exact absurd h (by decide)
  · have : (deref diamondE.mem 4).edges = [] := by decide
    unfold ChildEdge at hc
    rw [this] at hc
    cases hc

/-- C3: when `AddItemRelation(parent, child)` returns an error, aliased arguments
included, the memory is what it was before the call, so every item's `edges` and
`parents` are; so are the items registry and the root; and `g.edges` reads, under
every name, the list it read before. -/
theorem rejected_relation_atomic (w w1 : World) (parent child : Ptr) (e : String)
    (hp : parent < w.mem.length) (hc : child < w.mem.length)
    (h : AddItemRelation w parent child = some (w1, some e)) :
    w1.mem = w.mem ∧
      (∀ q, (deref w1.mem q).edges = (deref w.mem q).edges ∧
        (deref w1.mem q).parents = (deref w.mem q).parents) ∧
      w1.g.items = w.g.items ∧ w1.g.root = w.g.root ∧
      (∀ k, (mapGet w1.g.edges k).getD [] = (mapGet w.g.edges k).getD []) := by
  rcases AddItemRelation_eq w parent child with ⟨_, heq⟩ | ⟨_, heq⟩
  · rw [heq] at h
    simp only [Option.some.injEq, Prod.mk.injEq] at h
    rcases h with ⟨rfl, _⟩
    have hm := unlink_link_mem w parent child hp hc
    exact ⟨hm, fun q => by rw [hm]; exact ⟨rfl, rfl⟩, rfl, rfl,
      unlink_link_edges w parent child hp hc⟩
  · rw [heq] at h
    simp at h

theorem rejected_relation_atomic_witness :
    AddItemRelation diamondE 3 3 = some (unlink (link diamondE 3 3) 3 3, some "cyclic") ∧
      (unlink (link diamondE 3 3) 3 3).mem = diamondE.mem :=
  ⟨by decide,
    (rejected_relation_atomic diamondE (unlink (link diamondE 3 3) 3 3) 3 3 "cyclic"
      (by decide) (by decide) (by decide)).1⟩

/-- C8: `AddItem(n)` returns an error iff the name of `n` is already registered,
and then the whole state is unchanged; otherwise the registry becomes the old one
plus `n.name ↦ n` (one entry more), the root becomes `n` iff the registry was
empty and is otherwise unchanged, and memory and `g.edges` are unchanged.  After
`AddItem` calls for `N` pairwise distinct names on a new graph the registry holds
exactly `N` items. -/
theorem addItem_registers (w : World) (n : Ptr) :
    ((AddItem w n).2 ≠ none ↔ (mapGet w.g.items (deref w.mem n).name).isSome = true) ∧
      ((AddItem w n).2 ≠ none → (AddItem w n).1 = w) ∧
      ((AddItem w n).2 = none →
        (∀ k, mapGet (AddItem w n).1.g.items k
          = if k = (deref w.mem n).name then some n else mapGet w.g.items k) ∧
        (AddItem w n).1.g.items = w.g.items ++ [((deref w.mem n).name, n)] ∧
        (AddItem w n).1.g.items.length = w.g.items.length + 1 ∧
        (AddItem w n).1.g.root = (if w.g.items.length = 0 then some n else w.g.root) ∧
        (AddItem w n).1.mem = w.mem ∧ (AddItem w n).1.g.edges = w.g.edges) ∧
      (∀ (mem : List Item) (items : List Ptr),
        (items.map (fun i => (deref mem i).name)).Nodup →
        (AddItems ⟨mem, NewGraph⟩ items).g.items.length = items.length) := by
  refine ⟨?_, ?_, ?_, ?_⟩
  · rcases AddItem_cases w n with ⟨hs, heq⟩ | ⟨hn, he, _⟩
    · simp [heq, hs]
    · simp [he, hn]
  · intro hne
    rcases AddItem_cases w n with ⟨_, heq⟩ | ⟨_, he, _⟩
    · rw [heq]
    · exact absurd he hne
  · intro hnone
    rcases AddItem_cases w n with ⟨_, heq⟩ | ⟨hn, _, hmem, hedges, hitems, hroot⟩
    · rw [heq] at hnone; cases hnone
    · refine ⟨?_, hitems, by rw [hitems]; simp, hroot, hmem, hedges⟩
      intro k
      rw [hitems, mapGet_append_singleton]
      by_cases hk : k = (deref w.mem n).name
      · rw [hk, hn]
      · rcases hg : mapGet w.g.items k with _ | x
        · simp [hk]
        · simp [hk]
  · intro mem items hn
    have := (AddItems_length items ⟨mem, NewGraph⟩ hn (by intro i _; rfl)).1
    simpa [NewGraph] using this

theorem addItem_registers_witness :
    ((AddItem fiveItems 0).2 ≠ none ∧ (AddItem fiveItems 0).1 = fiveItems) ∧
      ((AddItem (NewItems World.empty ["a"]) 0).2 = none ∧
        (AddItem (NewItems World.empty ["a"]) 0).1.g.root = some 0) ∧
      (AddItems ⟨fiveItems.mem, NewGraph⟩ [0, 1, 2, 3, 4]).g.items.length = 5 :=
  ⟨⟨by decide, (addItem_registers fiveItems 0).2.1 (by decide)⟩,
    ⟨by decide,
      ((addItem_registers (NewItems World.empty ["a"]) 0).2.2.1 (by decide)).2.2.2.1⟩,
    (addItem_registers fiveItems 0).2.2.2 fiveItems.mem [0, 1, 2, 3, 4] (by decide)⟩

/-- C9: in every reachable state, for all items `p` and `c`, `c` occurs in
`p.edges` exactly as often as `p` occurs in `c.parents`; in particular `c` is in
`p.edges` iff `p` is in `c.parents`. -/
theorem adjacency_mirrored (w : World) (h : Reachable w) (p c : Ptr) :
    (deref w.mem p).edges.count c = (deref w.mem c).parents.count p ∧
      (c ∈ (deref w.mem p).edges ↔ p ∈ (deref w.mem c).parents) :=
  ⟨(Reachable_inv w h).2.1 p c,
    (ParentLink_iff_ChildEdge w.mem (Reachable_inv w h).2.1 c p).symm⟩

theorem adjacency_mirrored_witness :
    Reachable diamondE ∧
      (deref diamondE.mem 1).edges.count 3 = (deref diamondE.mem 3).parents.count 1 :=
  ⟨Reachable_diamondE, (adjacency_mirrored diamondE Reachable_diamondE 1 3).1⟩

/-- C10: a sequence of `AddItemRelation` calls on fresh allocated items always
returns, and afterwards each item's `edges` is the list of the children of the
successful calls with that item as parent, in call order, and its `parents` is the
list of the parents of the successful calls with that item as child, in call
order; rejected calls contribute nothing. -/
theorem adjacency_records_successes (w : World) (calls : List (Ptr × Ptr))
    (hfresh : ∀ q, (deref w.mem q).edges = [] ∧ (deref w.mem q).parents = [])
    (hvalid : ∀ c ∈ calls, c.1 < w.mem.length ∧ c.2 < w.mem.length) :
    ∃ w1 es, AddItemRelations w calls = some (w1, es) ∧ es.length = calls.length ∧
      ∀ item : Ptr,
        (deref w1.mem item).edges
          = ((successes calls es).filter (fun c => c.1 = item)).map (fun c => c.2) ∧
        (deref w1.mem item).parents
          = ((successes calls es).filter (fun c => c.2 = item)).map (fun c => c.1) := by
  rcases AddItemRelations_spec calls w hvalid with ⟨w1, es, hrun, hlen, hs⟩
  refine ⟨w1, es, hrun, hlen, fun item => ?_⟩
  have := hs item
  rw [(hfresh item).1, (hfresh item).2] at this
  simpa using this

theorem adjacency_records_successes_witness :
    ∃ w1 es, AddItemRelations fiveItems [(0, 1), (1, 0)] = some (w1, es) ∧
      es.length = [((0 : Ptr), (1 : Ptr)), (1, 0)].length ∧
      ∀ item : Ptr,
        (deref w1.mem item).edges
          = ((successes [(0, 1), (1, 0)] es).filter (fun c => c.1 = item)).map (fun c => c.2) ∧
        (deref w1.mem item).parents
          = ((successes [(0, 1), (1, 0)] es).filter (fun c => c.2 = item)).map (fun c => c.1) :=
  adjacency_records_successes fiveItems [(0, 1), (1, 0)]
    (by
      intro q
      by_cases hq : q < 5
      · have : ∀ k, k < 5 → (deref fiveItems.mem k).edges = [] ∧
            (deref fiveItems.mem k).parents = [] := by decide
        exact this q hq
      · rw [deref_of_le _ _ (by
          have : fiveItems.mem.length = 5 := by decide
          rw [this]; exact Nat.le_of_not_lt hq)]
        exact ⟨rfl, rfl⟩)
    (by decide)
/-! ### The execution walker -/

theorem WalkReach_run (w : World) (cb : Callback) (sched : List Choice) :
    ∀ s s1 : Walk, WalkReach w cb s → run w cb sched s = some s1 → WalkReach w cb s1 := by
  induction sched with
  | nil =>
    intro s s1 h hr
    simp only [run, Option.some.injEq] at hr
    rw [← hr]; exact h
  | cons c rest ih =>
    intro s s1 h hr
    unfold run at hr
    rcases hs : step w cb c s with _ | s2
    · simp [hs] at hr
    · simp only [hs] at hr
      exact ih s2 s1 (WalkReach.step c h hs) hr

theorem WalkReach_WalkForExecution (w : World) (cb : Callback) (order : List Ptr)
    (sched : List Choice) (s : Walk) (ho : order.Perm (readyItems w))
    (h : WalkForExecution w cb order sched = some s) : WalkReach w cb s :=
  WalkReach_run w cb sched _ s (WalkReach.start ⟨order, ho, rfl⟩) h

theorem WalkStart_diamond : WalkStart diamond (walkEntry [0]) :=
  ⟨[0], by decide, by decide⟩

theorem Reachable_fourItems : Reachable fourItems :=
  Reachable_AddItems _ _ (Reachable_NewItems _ _ Reachable.newGraph) (by decide)

theorem diamond_built :
    AddItemRelations fourItems [(0, 1), (0, 2), (1, 3), (2, 3)]
      = some (diamond, [none, none, none, none]) := by
  decide

theorem Reachable_diamond : Reachable diamond :=
  Reachable_AddItemRelations _ _ _ _ Reachable_fourItems (by decide) diamond_built

theorem Reachable_twoItems : Reachable twoItems :=
  Reachable_AddItems _ _ (Reachable_NewItems _ _ Reachable.newGraph) (by decide)

theorem chain_built :
    AddItemRelations twoItems [(0, 1)] = some (chain, [none]) := by
  decide

theorem Reachable_chain : Reachable chain :=
  Reachable_AddItemRelations _ _ _ _ Reachable_twoItems (by decide) chain_built

/-- C4 fails on the code: on the diamond `a → b`, `a → c`, `b → d`, `c → d` with a
callback that always succeeds, a walk reaches a state in which the callback of `d`
has started although the callback of its parent `c` has not returned. -/
theorem walk_starts_before_parent_done :
    Reachable diamond ∧
    WalkForExecution diamond cbOk [0] schedOverlap
      = some ⟨PC.len, [3], ["b", "a"], [],
          [(2, GState.running none), (3, GState.running none)],
          [Event.start 0, Event.ok 0, Event.start 1, Event.ok 1, Event.start 2,
            Event.start 3]⟩ ∧
    ∃ s, WalkReach diamond cbOk s ∧
      Event.start 3 ∈ s.trace ∧ 2 ∈ (deref diamond.mem 3).parents ∧
      Event.ok 2 ∉ s.trace ∧ parentsFirst diamond.mem s.trace [] = false := by
  have hrun : WalkForExecution diamond cbOk [0] schedOverlap
      = some ⟨PC.len, [3], ["b", "a"], [],
          [(2, GState.running none), (3, GState.running none)],
          [Event.start 0, Event.ok 0, Event.start 1, Event.ok 1, Event.start 2,
            Event.start 3]⟩ := by
    decide
  exact ⟨Reachable_diamond, hrun,
    _, WalkReach_WalkForExecution _ _ _ _ _ (by decide) hrun,
    by decide, by decide, by decide, by decide⟩

/-- C5 fails on the code: on the diamond with a callback that always succeeds, a
walk runs to its return having invoked the callback twice on `d`. -/
theorem walk_invokes_twice :
    Reachable diamond ∧
    WalkForExecution diamond cbOk [0] schedBatches
      = some ⟨PC.done none, [], ["d", "d", "c", "b", "a"], [], [],
          [Event.start 0, Event.ok 0, Event.start 1, Event.ok 1, Event.start 2,
            Event.ok 2, Event.start 3, Event.ok 3, Event.start 3, Event.ok 3]⟩ ∧
    ∃ s, WalkReach diamond cbOk s ∧ s.pc = PC.done none ∧
      s.trace.count (Event.start 3) = 2 := by
  have hrun : WalkForExecution diamond cbOk [0] schedBatches
      = some ⟨PC.done none, [], ["d", "d", "c", "b", "a"], [], [],
          [Event.start 0, Event.ok 0, Event.start 1, Event.ok 1, Event.start 2,
            Event.ok 2, Event.start 3, Event.ok 3, Event.start 3, Event.ok 3]⟩ := by
    decide
  exact ⟨Reachable_diamond, hrun,
    _, WalkReach_WalkForExecution _ _ _ _ _ (by decide) hrun, rfl, by decide⟩

/-- C6 fails on the code: on the chain `a → b` with a callback that fails on `a`,
the walk invokes the callback on `a`, the callback returns an error, the error is
sent on the channel, and the walk returns `nil`. -/
theorem walk_drops_error :
    Reachable chain ∧
    WalkForExecution chain (cbFailAt 0) [0] schedChain
      = some ⟨PC.done none, [], [], ["boom"], [],
          [Event.start 0, Event.fail 0 "boom"]⟩ ∧
    ∃ s, WalkReach chain (cbFailAt 0) s ∧ s.pc = PC.done none ∧
      Event.fail 0 "boom" ∈ s.trace := by
  have hrun : WalkForExecution chain (cbFailAt 0) [0] schedChain
      = some ⟨PC.done none, [], [], ["boom"], [],
          [Event.start 0, Event.fail 0 "boom"]⟩ := by
    decide
  exact ⟨Reachable_chain, hrun,
    _, WalkReach_WalkForExecution _ _ _ _ _ (by decide) hrun, rfl, by decide⟩
theorem Starved_stepMain (s s1 : Walk) (hs : Starved s) (h : stepMain diamond s = some s1) :
    Starved s1 := by
  obtain ⟨pc, stack, visited, errors, gor, trace⟩ := s
  obtain ⟨hv, hg, htop, hdeq, hdone, hlive⟩ := hs
  simp only [Pending] at hv hg htop hdeq hdone hlive
  cases pc with
  | top =>
    simp only [stepMain] at h
    by_cases h0 : stack.length = 0
    · exfalso
      have hnil : stack = [] := List.length_eq_zero.mp h0
      rcases htop rfl with h1 | h1
      · exact h1 hnil
      · subst hnil; subst h1
        simp at hlive
    · simp only [h0, if_false, Option.some.injEq] at h
      subst h
      refine ⟨hv, hg, by simp, fun _ e => h0 (List.length_eq_zero.mpr e), by simp, ?_⟩
      simpa [Pending] using hlive
  | deq =>
    simp only [stepMain] at h
    cases stack with
    | nil => simp at h
    | cons cur rest =>
      simp only [Option.some.injEq] at h
      subst h
      refine ⟨hv, hg, by simp, by simp, by simp, ?_⟩
      have e3 : (deref diamond.mem 3).parents = [1, 2] := rfl
      simp only [Pending, List.mem_cons] at hlive ⊢
      aesop
  | check cur ps =>
    cases ps with
    | nil =>
      simp only [stepMain, Option.some.injEq] at h
      subst h
      refine ⟨hv, hg, by simp, by simp, by simp, ?_⟩
      simp only [Pending] at hlive ⊢
      aesop
    | cons p rest =>
      simp only [stepMain] at h
      by_cases hp : (deref diamond.mem p).name ∈ visited
      · simp only [hp, if_true, Option.some.injEq] at h
        subst h
        refine ⟨hv, hg, by simp, by simp, by simp, ?_⟩
        have hb : ¬ (cur = 3 ∧ p = 1 ∧ rest = [2]) := by
          rintro ⟨_, rfl, _⟩
          exact hv hp
        simp only [Pending] at hlive ⊢
        aesop
      · simp only [hp, if_false, Option.some.injEq] at h
        subst h
        refine ⟨hv, hg, by simp, by simp, by simp, ?_⟩
        simp only [Pending] at hlive ⊢
        aesop
  | requeue cur ps =>
    simp only [stepMain, Option.some.injEq] at h
    subst h
    refine ⟨hv, hg, by simp, by simp, by simp, ?_⟩
    simp only [Pending] at hlive ⊢
    aesop
  | launch cur =>
    simp only [stepMain, Option.some.injEq] at h
    subst h
    refine ⟨hv, ?_, by simp, by simp, by simp, ?_⟩
    · intro x gs r hm hr
      simp only [List.mem_append, List.mem_singleton, Prod.mk.injEq] at hm
      rcases hm with hm | ⟨_, rfl⟩
      · exact hg x gs r hm hr
      · rcases hr with hr | hr <;> cases hr
    · simp only [Pending] at hlive ⊢
      aesop
  | len =>
    simp only [stepMain] at h
    by_cases h0 : stack.length = 0
    · simp only [h0, if_true, Option.some.injEq] at h
      subst h
      refine ⟨hv, hg, by simp, by simp, by simp, ?_⟩
      simp only [Pending] at hlive ⊢
      aesop
    · simp only [h0, if_false, Option.some.injEq] at h
      subst h
      refine ⟨hv, hg, ?_, by simp, by simp, ?_⟩
      · intro _
        left
        intro e
        exact h0 (List.length_eq_zero.mpr e)
      · simp only [Pending] at hlive ⊢
        aesop
  | wait =>
    simp only [stepMain] at h
    by_cases h0 : gor.length = 0
    · simp only [h0, if_true, Option.some.injEq] at h
      subst h
      refine ⟨hv, hg, ?_, by simp, by simp, ?_⟩
      · intro _
        right
        exact List.length_eq_zero.mp h0
      · simp only [Pending] at hlive ⊢
        aesop
    · simp [h0] at h
  | done r => exact absurd rfl (hdone r)

theorem exists_mem_set (l : List (Ptr × GState)) (k : Nat) (i x : Ptr) (g0 g1 : GState)
    (hk : l[k]? = some (i, g0)) (h : ∃ gs, (x, gs) ∈ l) : ∃ gs, (x, gs) ∈ l.set k (i, g1) := by
  rcases h with ⟨gs, hm⟩
  rcases List.mem_iff_getElem?.mp hm with ⟨n, hn⟩
  by_cases e : k = n
  · subst e
    rw [hk] at hn
    simp only [Option.some.injEq, Prod.mk.injEq] at hn
    refine ⟨g1, List.mem_iff_getElem?.mpr ⟨k, ?_⟩⟩
    rw [List.getElem?_set]
    have hlt : k < l.length := by
      by_contra hc
      rw [List.getElem?_eq_none (Nat.le_of_not_lt hc)] at hk
      cases hk
    simp [hlt, hn.1]
  · refine ⟨gs, List.mem_iff_getElem?.mpr ⟨n, ?_⟩⟩
    rw [List.getElem?_set]
    simp [e, hn]

theorem mem_eraseIdx_of_ne (l : List (Ptr × GState)) (k : Nat) (i x : Ptr) (g0 gs : GState)
    (hk : l[k]? = some (i, g0)) (hne : x ≠ i) (hm : (x, gs) ∈ l) :
    (x, gs) ∈ l.eraseIdx k := by
  rcases List.mem_iff_getElem?.mp hm with ⟨n, hn⟩
  apply List.mem_eraseIdx_iff_getElem?.mpr
  refine ⟨n, ?_, hn⟩
  rintro rfl
  rw [hk] at hn
  simp only [Option.some.injEq, Prod.mk.injEq] at hn
  exact hne hn.1.symm

theorem name_eq_b (x : Ptr) (h : (deref diamond.mem x).name = "b") : x = 1 := by
  by_cases hx : x < 4
  · have : ∀ k, k < 4 → (deref diamond.mem k).name = "b" → k = 1 := by decide
    exact this x hx h
  · rw [deref_of_le _ _ (by
      have : diamond.mem.length = 4 := rfl
      rw [this]; exact Nat.le_of_not_lt hx)] at h
    exact absurd h (by decide)

theorem Starved_visit (k : Nat) (s s1 : Walk) (hs : Starved s)
    (h : visit diamond (cbFailAt 1) k s = some s1) : Starved s1 := by
  obtain ⟨pc, stack, visited, errors, gor, trace⟩ := s
  obtain ⟨hv, hg, htop, hdeq, hdone, hlive⟩ := hs
  simp only at hv hg htop hdeq hdone hlive
  have hne : ∀ i g, gor[k]? = some (i, g) → gor ≠ [] := by
    intro i g hk e
    rw [e] at hk
    simp at hk
  unfold visit at h
  simp only at h
  rcases hk : gor[k]? with _ | ⟨i, g⟩
  · simp [hk] at h
  · have hmem : (i, g) ∈ gor := List.mem_iff_getElem?.mpr ⟨k, hk⟩
    have htop1 : pc = PC.top → stack ≠ [] := by
      intro e
      rcases htop e with h1 | h1
      · exact h1
      · exact absurd h1 (hne i g hk)
    have hgset : ∀ (g1 : GState),
        (∀ r, (g1 = GState.running r ∨ g1 = GState.returned r) → r = cbFailAt 1 0 i) →
        ∀ x gs r, (x, gs) ∈ gor.set k (i, g1) →
          (gs = GState.running r ∨ gs = GState.returned r) → r = cbFailAt 1 0 x := by
      intro g1 h1 x gs r hm hr
      rcases List.mem_or_eq_of_mem_set hm with hm | hm
      · exact hg x gs r hm hr
      · simp only [Prod.mk.injEq] at hm
        rcases hm with ⟨rfl, rfl⟩
        exact h1 r hr
    have hliveset : ∀ (g1 : GState) (pc1 : PC) (tr : List Event), pc1 = pc →
        (Pending ⟨pc1, stack, visited, errors, gor.set k (i, g1), tr⟩ 0 ∨
          Pending ⟨pc1, stack, visited, errors, gor.set k (i, g1), tr⟩ 2 ∨
          3 ∈ stack ∨ pc1 = PC.check 3 [1, 2] ∨ pc1 = PC.requeue 3 [2]) := by
      intro g1 pc1 tr e
      subst e
      simp only [Pending] at hlive ⊢
      rcases hlive with (h | h | h | h | h) | (h | h | h | h | h) | h
      · exact Or.inl (Or.inl h)
      · exact Or.inl (Or.inr (Or.inl h))
      · exact Or.inl (Or.inr (Or.inr (Or.inl h)))
      · exact Or.inl (Or.inr (Or.inr (Or.inr (Or.inl h))))
      · exact Or.inl (Or.inr (Or.inr (Or.inr (Or.inr (exists_mem_set gor k i 0 g g1 hk h)))))
      · exact Or.inr (Or.inl (Or.inl h))
      · exact Or.inr (Or.inl (Or.inr (Or.inl h)))
      · exact Or.inr (Or.inl (Or.inr (Or.inr (Or.inl h))))
      · exact Or.inr (Or.inl (Or.inr (Or.inr (Or.inr (Or.inl h)))))
      · exact Or.inr (Or.inl (Or.inr (Or.inr (Or.inr (Or.inr
          (exists_mem_set gor k i 2 g g1 hk h))))))
      · exact Or.inr (Or.inr h)
    have hliveerase : ∀ (vis : List String) (errs : List String) (extra : List Ptr),
        (i = 0 → 2 ∈ extra) → (i = 2 → 3 ∈ extra) →
        (Pending ⟨pc, stack ++ extra, vis, errs, gor.eraseIdx k, trace⟩ 0 ∨
          Pending ⟨pc, stack ++ extra, vis, errs, gor.eraseIdx k, trace⟩ 2 ∨
          3 ∈ stack ++ extra ∨ pc = PC.check 3 [1, 2] ∨ pc = PC.requeue 3 [2]) := by
      intro vis errs extra ha hc
      simp only [Pending, List.mem_append] at hlive ⊢
      by_cases e0 : i = 0
      · exact Or.inr (Or.inl (Or.inl (Or.inr (ha e0))))
      · by_cases e2 : i = 2
        · exact Or.inr (Or.inr (Or.inl (Or.inr (hc e2))))
        · rcases hlive with (h | h | h | h | ⟨gs, h⟩) | (h | h | h | h | ⟨gs, h⟩) | h | h
          · exact Or.inl (Or.inl (Or.inl h))
          · exact Or.inl (Or.inr (Or.inl h))
          · exact Or.inl (Or.inr (Or.inr (Or.inl h)))
          · exact Or.inl (Or.inr (Or.inr (Or.inr (Or.inl h))))
          · exact Or.inl (Or.inr (Or.inr (Or.inr (Or.inr
              ⟨gs, mem_eraseIdx_of_ne gor k i 0 g gs hk (fun e => e0 e.symm) h⟩))))
          · exact Or.inr (Or.inl (Or.inl (Or.inl h)))
          · exact Or.inr (Or.inl (Or.inr (Or.inl h)))
          · exact Or.inr (Or.inl (Or.inr (Or.inr (Or.inl h))))
          · exact Or.inr (Or.inl (Or.inr (Or.inr (Or.inr (Or.inl h)))))
          · exact Or.inr (Or.inl (Or.inr (Or.inr (Or.inr (Or.inr
              ⟨gs, mem_eraseIdx_of_ne gor k i 2 g gs hk (fun e => e2 e.symm) h⟩)))))
          · exact Or.inr (Or.inr (Or.inl (Or.inl h)))
          · exact Or.inr (Or.inr (Or.inr h))
    have hgerase : ∀ x gs r, (x, gs) ∈ gor.eraseIdx k →
        (gs = GState.running r ∨ gs = GState.returned r) → r = cbFailAt 1 0 x :=
      fun x gs r hm hr => hg x gs r (List.mem_of_mem_eraseIdx hm) hr
    cases g with
    | spawned =>
      simp only [hk, Option.some.injEq] at h
      subst h
      refine ⟨hv, hgset _ ?_, fun e => Or.inl (htop1 e), hdeq, hdone, hliveset _ _ _ rfl⟩
      intro r hr
      rcases hr with hr | hr
      · simp only [GState.running.injEq] at hr
        rw [← hr]; rfl
      · cases hr
    | running r =>
      have hr0 := hg i _ r hmem (Or.inl rfl)
      cases r with
      | none =>
        simp only [hk, Option.some.injEq] at h
        subst h
        refine ⟨hv, hgset _ ?_, fun e => Or.inl (htop1 e), hdeq, hdone, hliveset _ _ _ rfl⟩
        intro r hr
        rcases hr with hr | hr
        · cases hr
        · simp only [GState.returned.injEq] at hr
          rw [← hr]; exact hr0
      | some e =>
        simp only [hk, Option.some.injEq] at h
        subst h
        refine ⟨hv, hgset _ ?_, fun e => Or.inl (htop1 e), hdeq, hdone, hliveset _ _ _ rfl⟩
        intro r hr
        rcases hr with hr | hr
        · cases hr
        · simp only [GState.returned.injEq] at hr
          rw [← hr]; exact hr0
    | returned r =>
      have hr0 := hg i _ r hmem (Or.inr rfl)
      cases r with
      | none =>
        simp only [hk, Option.some.injEq] at h
        subst h
        have hi1 : i ≠ 1 := by
          rintro rfl
          simp [cbFailAt] at hr0
        refine ⟨?_, hgerase, ?_, ?_, hdone, hliveerase _ _ _ ?_ ?_⟩
        · intro hb
          rcases List.mem_cons.mp hb with hb | hb
          · exact hi1 (name_eq_b i hb.symm)
          · exact hv hb
        · intro e
          left
          intro hnil
          exact htop1 e (List.append_eq_nil.mp hnil).1
        · intro e hnil
          exact hdeq e (List.append_eq_nil.mp hnil).1
        · rintro rfl; decide
        · rintro rfl; decide
      | some e =>
        by_cases hroom : errors.length < diamond.g.items.length
        · simp only [hk, hroom, if_true, Option.some.injEq] at h
          subst h
          have hi1 : i = 1 := by
            by_contra hc
            simp [cbFailAt, hc] at hr0
          have := hliveerase visited (errors ++ [e]) [] (by rintro rfl; cases hi1)
            (by rintro rfl; cases hi1)
          simp only [List.append_nil] at this
          exact ⟨hv, hgerase, fun e => Or.inl (htop1 e), hdeq, hdone, this⟩
        · simp [hk, hroom] at h

theorem Starved_reach (s : Walk) (h : WalkReach diamond (cbFailAt 1) s) : Starved s := by
  induction h with
  | start hs =>
    rcases hs with ⟨order, hp, rfl⟩
    have : readyItems diamond = [0] := by decide
    rw [this] at hp
    rw [List.perm_singleton.mp hp]
    have he : walkStart diamond [0] = walkEntry [0] := by decide
    rw [he]
    refine ⟨by simp [walkEntry], by simp [walkEntry], by simp [walkEntry],
      by simp [walkEntry], by simp [walkEntry], ?_⟩
    left; left
    simp [walkEntry]
  | step c _ hstep ih =>
    cases c with
    | main => exact Starved_stepMain _ _ ih hstep
    | go k => exact Starved_visit k _ _ ih hstep

theorem starved_round (vis : List String) (tr : List Event) (hb : "b" ∉ vis) (hc : "c" ∈ vis) :
    run diamond (cbFailAt 1)
      [Choice.main, Choice.main, Choice.main, Choice.main, Choice.main, Choice.main,
        Choice.main, Choice.main, Choice.go 0, Choice.go 0, Choice.go 0]
      ⟨PC.top, [3], vis, ["boom"], [], tr⟩
      = some ⟨PC.top, [3], "d" :: vis, ["boom"], [], tr ++ [Event.start 3, Event.ok 3]⟩ := by
  simp [run, step, stepMain, visit, deref, diamond, cbFailAt, hb, hc]

theorem starved_rounds (n : Nat) :
    ∃ vis tr, WalkReach diamond (cbFailAt 1) ⟨PC.top, [3], vis, ["boom"], [], tr⟩ ∧
      "b" ∉ vis ∧ "c" ∈ vis ∧ tr.count (Event.start 3) = n := by
  induction n with
  | zero =>
    have hrun : run diamond (cbFailAt 1)
        [Choice.main, Choice.main, Choice.main, Choice.main, Choice.main,
          Choice.go 0, Choice.go 0, Choice.go 0, Choice.main,
          Choice.main, Choice.main, Choice.main, Choice.main, Choice.main, Choice.main,
          Choice.main, Choice.main, Choice.main, Choice.main, Choice.main, Choice.main,
          Choice.go 0, Choice.go 0, Choice.go 0, Choice.go 0, Choice.go 0, Choice.go 0,
          Choice.main] (walkEntry [0])
        = some ⟨PC.top, [3], ["c", "a"], ["boom"], [],
            [Event.start 0, Event.ok 0, Event.start 1, Event.fail 1 "boom", Event.start 2,
              Event.ok 2]⟩ := by
      decide
    exact ⟨_, _, WalkReach_run _ _ _ _ _ (WalkReach.start WalkStart_diamond) hrun,
      by decide, by decide, by decide⟩
  | succ n ih =>
    rcases ih with ⟨vis, tr, hreach, hb, hc, hcount⟩
    refine ⟨"d" :: vis, tr ++ [Event.start 3, Event.ok 3],
      WalkReach_run _ _ _ _ _ hreach (starved_round vis tr hb hc), ?_, ?_, ?_⟩
    · intro h
      rcases List.mem_cons.mp h with h | h
      · exact absurd h (by decide)
      · exact hb h
    · exact List.mem_cons_of_mem _ hc
    · rw [List.count_append, hcount]
      rfl
/-- C7 fails on the code: on the diamond `a → b`, `a → c`, `b → d`, `c → d` with a
callback that fails on `b` and succeeds elsewhere, no state of the walk, under any
schedule, is one in which `WalkForExecution` has returned; and the walk does not
stop either: for every `n` it reaches a state in which the callback has been
invoked `n` times on `d`. -/
theorem walk_never_returns :
    (∀ s, WalkReach diamond (cbFailAt 1) s → ∀ r, s.pc ≠ PC.done r) ∧
      (∀ n, ∃ s, WalkReach diamond (cbFailAt 1) s ∧ s.trace.count (Event.start 3) = n) := by
  refine ⟨fun s h r => (Starved_reach s h).2.2.2.2.1 r, fun n => ?_⟩
  rcases starved_rounds n with ⟨vis, tr, hreach, _, _, hcount⟩
  exact ⟨_, hreach, hcount⟩

theorem walk_never_returns_witness :
    Reachable diamond ∧ WalkReach diamond (cbFailAt 1) (walkEntry [0]) ∧
      (walkEntry [0]).pc ≠ PC.done none :=
  ⟨Reachable_diamond, WalkReach.start WalkStart_diamond,
    walk_never_returns.1 (walkEntry [0]) (WalkReach.start WalkStart_diamond) none⟩
/-! ### General facts about walk steps -/

theorem visit_pc (w : World) (cb : Callback) (k : Nat) (s s1 : Walk)
    (h : visit w cb k s = some s1) : s1.pc = s.pc := by
  unfold visit at h
  rcases hk : s.goroutines[k]? with _ | ⟨i, g⟩
  · simp [hk] at h
  · rcases g with _ | r | r
    · simp only [hk, Option.some.injEq] at h
      rw [← h]
    · cases r with
      | none =>
        simp only [hk, Option.some.injEq] at h
        rw [← h]
      | some e =>
        simp only [hk, Option.some.injEq] at h
        rw [← h]
    · cases r with
      | none =>
        simp only [hk, Option.some.injEq] at h
        rw [← h]
      | some e =>
        simp only [hk] at h
        split at h
        · simp only [Option.some.injEq] at h
          rw [← h]
        · cases h

theorem stepMain_done (w : World) (s s1 : Walk) (r : Option String)
    (h : stepMain w s = some s1) (hd : s1.pc = PC.done r) : r = none := by
  obtain ⟨pc, stack, visited, errors, gor, trace⟩ := s
  cases pc with
  | top =>
    simp only [stepMain] at h
    split at h
    · simp only [Option.some.injEq] at h
      rw [← h] at hd
      simp only [PC.done.injEq] at hd
      exact hd.symm
    · simp only [Option.some.injEq] at h
      rw [← h] at hd
      cases hd
  | deq =>
    simp only [stepMain] at h
    cases stack with
    | nil => cases h
    | cons c rest =>
      simp only [Option.some.injEq] at h
      rw [← h] at hd
      cases hd
  | check cur ps =>
    cases ps with
    | nil =>
      simp only [stepMain, Option.some.injEq] at h
      rw [← h] at hd
      cases hd
    | cons p rest =>
      simp only [stepMain] at h
      split at h <;>
      · simp only [Option.some.injEq] at h
        rw [← h] at hd
        cases hd
  | requeue cur ps =>
    simp only [stepMain, Option.some.injEq] at h
    rw [← h] at hd
    cases hd
  | launch cur =>
    simp only [stepMain, Option.some.injEq] at h
    rw [← h] at hd
    cases hd
  | len =>
    simp only [stepMain] at h
    split at h <;>
    · simp only [Option.some.injEq] at h
      rw [← h] at hd
      cases hd
  | wait =>
    simp only [stepMain] at h
    split at h
    · simp only [Option.some.injEq] at h
      rw [← h] at hd
      cases hd
    · cases h
  | done r0 => simp [stepMain] at h

theorem walk_returns_nil (w : World) (cb : Callback) (hne : w.g.items.length ≠ 0) (s : Walk)
    (h : WalkReach w cb s) (r : Option String) (hd : s.pc = PC.done r) : r = none := by
  induction h generalizing r with
  | start hs =>
    rcases hs with ⟨order, _, rfl⟩
    simp only [walkStart, hne, if_false, walkEntry] at hd
    cases hd
  | step c _ hstep ih =>
    cases c with
    | main => exact stepMain_done w _ _ r hstep hd
    | go k =>
      have := visit_pc w cb k _ _ hstep
      rw [this] at hd
      exact ih r hd

theorem walk_empty_registry (w : World) (cb : Callback) (h0 : w.g.items.length = 0)
    (s : Walk) (h : WalkReach w cb s) : s = walkNoItems := by
  induction h with
  | start hs =>
    rcases hs with ⟨order, _, rfl⟩
    simp [walkStart, h0]
  | step c _ hstep ih =>
    rw [ih] at hstep
    cases c with
    | main => simp [step, stepMain, walkNoItems] at hstep
    | go k => simp [step, visit, walkNoItems] at hstep

/-- C13: on a graph with no registered items every state of the walk is the
immediate return with the error `no items`, with no callback invoked, and the
walk does return it; on a graph with at least one item a walk that returns,
returns `nil`. -/
theorem walk_no_items (w : World) (cb : Callback) :
    (w.g.items.length = 0 →
      WalkForExecution w cb [] [] = some walkNoItems ∧
      ∀ s, WalkReach w cb s →
        s.pc = PC.done (some "no items") ∧ s.trace = []) ∧
    (w.g.items.length ≠ 0 →
      ∀ s, WalkReach w cb s → ∀ r, s.pc = PC.done r → r = none) := by
  refine ⟨fun h0 => ⟨?_, fun s h => ?_⟩, fun hne s h r hd => walk_returns_nil w cb hne s h r hd⟩
  · simp [WalkForExecution, run, walkStart, h0]
  · rw [walk_empty_registry w cb h0 s h]
    exact ⟨rfl, rfl⟩

theorem walk_no_items_witness :
    WalkForExecution World.empty cbOk [] [] = some walkNoItems ∧
      ∀ r, (⟨PC.done none, [], [], ["boom"], [],
        [Event.start 0, Event.fail 0 "boom"]⟩ : Walk).pc = PC.done r → r = none :=
  ⟨((walk_no_items World.empty cbOk).1 (by decide)).1,
    (walk_no_items chain (cbFailAt 0)).2 (by decide) _
      (WalkReach_WalkForExecution chain (cbFailAt 0) [0] schedChain _ (by decide)
        (by decide))⟩

/-- C17: for every state and every allocated item `a`, `AddItemRelation(a, a)`
returns the error `cyclic` and leaves memory as it was, so the lengths of
`a.edges` and `a.parents` are unchanged. -/
theorem self_loop_rejected (w : World) (a : Ptr) (ha : a < w.mem.length) :
    ∃ w1, AddItemRelation w a a = some (w1, some "cyclic") ∧ w1.mem = w.mem ∧
      (deref w1.mem a).edges.length = (deref w.mem a).edges.length ∧
      (deref w1.mem a).parents.length = (deref w.mem a).parents.length := by
  rcases AddItemRelation_eq w a a with ⟨_, heq⟩ | ⟨hc, _⟩
  · have hm := unlink_link_mem w a a ha ha
    exact ⟨_, heq, hm, by rw [hm], by rw [hm]⟩
  · exfalso
    apply isCyclic_false_no_cycle _ _ hc
    apply Relation.TransGen.single
    unfold ParentLink
    rw [deref_link w a a a ha ha]
    simp

theorem self_loop_rejected_witness :
    ∃ w1, AddItemRelation diamondE 1 1 = some (w1, some "cyclic") ∧ w1.mem = diamondE.mem ∧
      (deref w1.mem 1).edges.length = (deref diamondE.mem 1).edges.length ∧
      (deref w1.mem 1).parents.length = (deref diamondE.mem 1).parents.length :=
  self_loop_rejected diamondE 1 (by decide)


theorem AddItems_mem (items : List Ptr) (w : World) : (AddItems w items).mem = w.mem := by
  induction items generalizing w with
  | nil => rfl
  | cons i rest ih => rw [AddItems_cons, ih, AddItem_mem]

theorem mapGet_AddItems (items : List Ptr) :
    ∀ (w : World) (s : String), mapGet (AddItems w items).g.items s
      = match mapGet w.g.items s with
        | some i => some i
        | none => items.find? (fun i => (deref w.mem i).name = s) := by
  induction items with
  | nil =>
    intro w s
    rcases h : mapGet w.g.items s with _ | i <;> simp [AddItems, h]
  | cons i rest ih =>
    intro w s
    rw [AddItems_cons, ih, AddItem_mem]
    rcases AddItem_cases w i with ⟨hsome, heq⟩ | ⟨hnone, _, _, _, hitems, _⟩
    · rw [heq]
      rcases h : mapGet w.g.items s with _ | j
      · have hne : ¬ (deref w.mem i).name = s := by
          intro e
          rw [e, h] at hsome
          cases hsome
        simp [List.find?, hne]
      · rfl
    · rw [hitems, mapGet_append_singleton]
      rcases h : mapGet w.g.items s with _ | j
      · by_cases e : s = (deref w.mem i).name
        · simp [List.find?, e]
        · have e1 : ¬ (deref w.mem i).name = s := fun x => e x.symm
          simp [List.find?, e, e1]
      · rfl

/-- C16: after any sequence of `AddItem` calls on a new graph, `GetItem(s)` returns
the item of the first call whose item is named `s` together with `true`, and
`nil` with `false` when no call had that name; it always returns and leaves the
state as it was. -/
theorem getItem_agrees (mem : List Item) (calls : List Ptr) (s : String) :
    (GetItem (AddItems ⟨mem, NewGraph⟩ calls) s).1 = AddItems ⟨mem, NewGraph⟩ calls ∧
      (GetItem (AddItems ⟨mem, NewGraph⟩ calls) s).2
        = match calls.find? (fun i => (deref mem i).name = s) with
          | some n => (some n, true)
          | none => (none, false) := by
  have h := mapGet_AddItems calls ⟨mem, NewGraph⟩ s
  simp only [NewGraph, mapGet, List.lookup] at h
  unfold GetItem
  rw [show mapGet (AddItems ⟨mem, NewGraph⟩ calls).g.items s
      = List.find? (fun i => decide ((deref mem i).name = s)) calls from h]
  rcases List.find? (fun i => decide ((deref mem i).name = s)) calls with _ | n
  · exact ⟨rfl, rfl⟩
  · exact ⟨rfl, rfl⟩


theorem isCyclicLoop_fuel_mono (mem : List Item) :
    ∀ (fuel k : Nat) (stack : List Ptr) (visited : List String) (b : Bool),
      isCyclicLoop mem fuel stack visited = some b →
      isCyclicLoop mem (fuel + k) stack visited = some b ∧
        dequeuedLoop mem (fuel + k) stack visited = dequeuedLoop mem fuel stack visited := by
  intro fuel
  induction fuel with
  | zero =>
    intro k stack visited b h
    cases stack with
    | nil =>
      simp only [isCyclicLoop] at h ⊢
      exact ⟨h, by simp [dequeuedLoop]⟩
    | cons c rest => simp [isCyclicLoop] at h
  | succ n ih =>
    intro k stack visited b h
    cases stack with
    | nil =>
      simp only [isCyclicLoop] at h ⊢
      exact ⟨h, by simp [dequeuedLoop]⟩
    | cons c rest =>
      have e : n + 1 + k = (n + k) + 1 := by omega
      rw [e]
      unfold isCyclicLoop at h
      unfold isCyclicLoop dequeuedLoop
      by_cases hv : (deref mem c).name ∈ visited
      · simp only [hv, if_true] at h ⊢
        exact ⟨h, trivial⟩
      · simp only [hv, if_false] at h ⊢
        have := ih k _ _ b h
        exact ⟨this.1, by rw [this.2]⟩

theorem dequeuedLoop_length (mem : List Item) :
    ∀ (fuel : Nat) (stack : List Ptr) (visited : List String),
      (dequeuedLoop mem fuel stack visited).length ≤ fuel := by
  intro fuel
  induction fuel with
  | zero =>
    intro stack visited
    cases stack <;> simp [dequeuedLoop]
  | succ n ih =>
    intro stack visited
    cases stack with
    | nil => simp [dequeuedLoop]
    | cons c rest =>
      unfold dequeuedLoop
      split
      · simp
      · simp only [List.length_cons]
        have := ih (rest ++ (deref mem c).parents) ((deref mem c).name :: visited)
        omega

theorem isCyclicLoop_isSome_of_cover (mem : List Item) (item : Ptr) (S : List String)
    (hcover : ∀ q, Relation.ReflTransGen (ParentLink mem) item q → (deref mem q).name ∈ S) :
    ∀ (fuel : Nat) (stack : List Ptr) (visited : List String),
      visited.Nodup → visited ⊆ S →
      (∀ p ∈ stack, Relation.ReflTransGen (ParentLink mem) item p) →
      S.length + 1 ≤ fuel + visited.length →
      (isCyclicLoop mem fuel stack visited).isSome = true := by
  intro fuel
  induction fuel with
  | zero =>
    intro stack visited hn hs _ hl
    have := (List.subperm_of_subset hn hs).length_le
    omega
  | succ n ih =>
    intro stack visited hn hs hr hl
    cases stack with
    | nil => simp [isCyclicLoop]
    | cons cur rest =>
      unfold isCyclicLoop
      by_cases hv : (deref mem cur).name ∈ visited
      · simp [hv]
      · simp only [hv, if_false]
        have hcur := hr cur (List.mem_cons_self _ _)
        apply ih
        · exact List.nodup_cons.mpr ⟨hv, hn⟩
        · intro x hx
          rcases List.mem_cons.mp hx with rfl | hx
          · exact hcover cur hcur
          · exact hs hx
        · intro p hp
          rcases List.mem_append.mp hp with hp | hp
          · exact hr p (List.mem_cons_of_mem _ hp)
          · exact Relation.ReflTransGen.tail hcur hp
        · simp only [List.length_cons]; omega

theorem isCyclic_eq_loop (mem : List Item) (item : Ptr) :
    isCyclic mem item = isCyclicLoop mem (mem.length + 2) [item] [] := by
  unfold isCyclic
  split
  · rename_i h
    have : (deref mem item).parents = [] := List.length_eq_zero.mp h
    simp [isCyclicLoop, this]
  · rfl

/-- C19: for every memory, with cycles or repeated parents or not, and every
item, if `S` lists without repetition the names of the items reachable from
`item` through zero or more parent links, the worklist loop of `isCyclic` returns
within `S.length + 1` dequeues, its result is the result of `isCyclic`, and the
call dequeues at most `S.length + 1` items. -/
theorem isCyclic_terminates (mem : List Item) (item : Ptr) (S : List String)
    (hS : S.Nodup)
    (hcover : ∀ n, n ∈ S ↔
      ∃ q, Relation.ReflTransGen (ParentLink mem) item q ∧ (deref mem q).name = n) :
    ∃ b, isCyclicLoop mem (S.length + 1) [item] [] = some b ∧
      isCyclic mem item = some b ∧ (dequeued mem item).length ≤ S.length + 1 := by
  have hsome := isCyclicLoop_isSome_of_cover mem item S
    (fun q hq => (hcover _).mpr ⟨q, hq, rfl⟩) (S.length + 1) [item] []
    List.nodup_nil (List.nil_subset _)
    (fun p hp => by
      rw [List.mem_singleton.mp hp])
    (by simp)
  rcases hb : isCyclicLoop mem (S.length + 1) [item] [] with _ | b
  · rw [hb] at hsome; cases hsome
  · have hle : S.length ≤ mem.length + 1 := by
      have hsub : S ⊆ allNames mem := by
        intro n hn
        rcases (hcover n).mp hn with ⟨q, _, rfl⟩
        exact deref_name_mem mem q
      have := (List.subperm_of_subset hS hsub).length_le
      simpa [allNames] using this
    have hk : mem.length + 2 = S.length + 1 + (mem.length + 1 - S.length) := by omega
    have hmono := isCyclicLoop_fuel_mono mem (S.length + 1) (mem.length + 1 - S.length)
      [item] [] b hb
    rw [← hk] at hmono
    refine ⟨b, rfl, by rw [isCyclic_eq_loop, hmono.1], ?_⟩
    unfold dequeued
    split
    · simp
    · rw [hmono.2]
      exact dequeuedLoop_length mem _ _ _

theorem diamond_ancestors (q : Ptr)
    (h : Relation.ReflTransGen (ParentLink diamond.mem) 3 q) : q < 4 := by
  induction h with
  | refl => decide
  | tail _ hstep ih =>
    have key : ∀ k, k < 4 → ∀ x ∈ (deref diamond.mem k).parents, x < 4 := by decide
    exact key _ ih _ hstep

theorem isCyclic_terminates_witness :
    ∃ b, isCyclicLoop diamond.mem (["d", "b", "c", "a"].length + 1) [3] [] = some b ∧
      isCyclic diamond.mem 3 = some b ∧
      (dequeued diamond.mem 3).length ≤ ["d", "b", "c", "a"].length + 1 :=
  isCyclic_terminates diamond.mem 3 ["d", "b", "c", "a"] (by decide) (by
    intro n
    constructor
    · intro hn
      have h1 : ParentLink diamond.mem 3 1 := by unfold ParentLink; decide
      have h2 : ParentLink diamond.mem 3 2 := by unfold ParentLink; decide
      have h0 : ParentLink diamond.mem 1 0 := by unfold ParentLink; decide
      simp only [List.mem_cons, List.mem_singleton, List.not_mem_nil, or_false] at hn
      rcases hn with rfl | rfl | rfl | rfl
      · exact ⟨3, Relation.ReflTransGen.refl, by decide⟩
      · exact ⟨1, Relation.ReflTransGen.single h1, by decide⟩
      · exact ⟨2, Relation.ReflTransGen.single h2, by decide⟩
      · exact ⟨0, (Relation.ReflTransGen.single h1).tail h0, by decide⟩
    · rintro ⟨q, hq, rfl⟩
      have key : ∀ k, k < 4 → (deref diamond.mem k).name ∈ ["d", "b", "c", "a"] := by decide
      exact key q (diamond_ancestors q hq))


theorem followFrom_back (mem : List Item) (cur : Ptr) (rest : List Ptr) (path : List Nat)
    (q : Ptr) (h : followFrom mem (rest ++ (deref mem cur).parents) path = some q) :
    followFrom mem (cur :: rest) (back rest path) = some q ∧ back rest path ≠ [0] := by
  cases path with
  | nil => simp [followFrom] at h
  | cons i p =>
    unfold back
    by_cases hi : i < rest.length
    · simp only [hi, if_true]
      simp only [followFrom, List.getElem?_append_left hi] at h
      refine ⟨?_, by simp⟩
      simpa [followFrom] using h
    · simp only [hi, if_false]
      simp only [followFrom, List.getElem?_append_right (Nat.le_of_not_lt hi)] at h
      refine ⟨?_, by simp⟩
      simpa [followFrom, follow] using h

theorem back_injective (rest : List Ptr) (p1 p2 : List Nat) (h1 : p1 ≠ []) (h2 : p2 ≠ [])
    (h : back rest p1 = back rest p2) : p1 = p2 := by
  cases p1 with
  | nil => exact absurd rfl h1
  | cons i a =>
    cases p2 with
    | nil => exact absurd rfl h2
    | cons j b =>
      unfold back at h
      by_cases hi : i < rest.length <;> by_cases hj : j < rest.length <;>
        simp only [hi, hj, if_true, if_false, List.cons.injEq] at h
      · rw [Nat.add_right_cancel h.1, h.2]
      · omega
      · omega
      · have : i = j := by omega
        rw [this, h.2.2]

theorem followFrom_cases (mem : List Item) (cur : Ptr) (rest : List Ptr) (path : List Nat)
    (q : Ptr) (h : followFrom mem (cur :: rest) path = some q) :
    (path = [0] ∧ q = cur) ∨
      ∃ p1, followFrom mem (rest ++ (deref mem cur).parents) p1 = some q ∧
        path = back rest p1 := by
  cases path with
  | nil => simp [followFrom] at h
  | cons i p =>
    cases i with
    | zero =>
      cases p with
      | nil =>
        simp only [followFrom, List.getElem?_cons_zero, follow, Option.some.injEq] at h
        exact Or.inl ⟨rfl, h.symm⟩
      | cons j p2 =>
        right
        refine ⟨(rest.length + j) :: p2, ?_, ?_⟩
        · simp only [followFrom, List.getElem?_cons_zero, follow] at h
          simp only [followFrom, List.getElem?_append_right (Nat.le_add_right _ _),
            Nat.add_sub_cancel_left]
          exact h
        · simp [back]
    | succ i =>
      right
      simp only [followFrom, List.getElem?_cons_succ] at h
      have hi : i < rest.length := by
        by_contra hc
        rw [List.getElem?_eq_none (Nat.le_of_not_lt hc)] at h
        cases h
      refine ⟨i :: p, ?_, ?_⟩
      · simp only [followFrom, List.getElem?_append_left hi]
        exact h
      · simp [back, hi]

theorem followFrom_ne_nil (mem : List Item) (stack : List Ptr) (path : List Nat) (q : Ptr)
    (h : followFrom mem stack path = some q) : path ≠ [] := by
  rintro rfl
  simp [followFrom] at h

theorem isCyclicLoop_false_paths (mem : List Item) :
    ∀ (fuel : Nat) (stack : List Ptr) (visited : List String),
      isCyclicLoop mem fuel stack visited = some false →
      (∀ p q, followFrom mem stack p = some q → (deref mem q).name ∉ visited) ∧
      (∀ p1 p2 q1 q2, followFrom mem stack p1 = some q1 → followFrom mem stack p2 = some q2 →
        (deref mem q1).name = (deref mem q2).name → p1 = p2) := by
  intro fuel
  induction fuel with
  | zero =>
    intro stack visited h
    cases stack with
    | nil =>
      refine ⟨fun p q hp => ?_, fun p1 p2 q1 q2 hp => ?_⟩
      · cases p <;> simp [followFrom] at hp
      · cases p1 <;> simp [followFrom] at hp
    | cons c rest => simp [isCyclicLoop] at h
  | succ n ih =>
    intro stack visited h
    cases stack with
    | nil =>
      refine ⟨fun p q hp => ?_, fun p1 p2 q1 q2 hp => ?_⟩
      · cases p <;> simp [followFrom] at hp
      · cases p1 <;> simp [followFrom] at hp
    | cons cur rest =>
      unfold isCyclicLoop at h
      by_cases hv : (deref mem cur).name ∈ visited
      · simp [hv] at h
      · simp only [hv, if_false] at h
        rcases ih _ _ h with ⟨ih1, ih2⟩
        constructor
        · intro p q hp
          rcases followFrom_cases mem cur rest p q hp with ⟨_, c⟩ | ⟨p1, hp1, _⟩
          · rw [c]; exact hv
          · exact fun hm => ih1 p1 q hp1 (List.mem_cons_of_mem _ hm)
        · intro p1 p2 q1 q2 h1 h2 hname
          rcases followFrom_cases mem cur rest p1 q1 h1 with ⟨e1, c1⟩ | ⟨a1, ha1, e1⟩ <;>
            rcases followFrom_cases mem cur rest p2 q2 h2 with ⟨e2, c2⟩ | ⟨a2, ha2, e2⟩
          · rw [e1, e2]
          · rw [c1] at hname
            exact absurd (List.mem_cons.mpr (Or.inl hname.symm)) (ih1 a2 q2 ha2)
          · rw [c2] at hname
            exact absurd (List.mem_cons.mpr (Or.inl hname)) (ih1 a1 q1 ha1)
          · rw [e1, e2, ih2 a1 a2 q1 q2 ha1 ha2 hname]

theorem isCyclicLoop_true_paths (mem : List Item) :
    ∀ (fuel : Nat) (stack : List Ptr) (visited : List String),
      isCyclicLoop mem fuel stack visited = some true →
      (∃ p q, followFrom mem stack p = some q ∧ (deref mem q).name ∈ visited) ∨
      (∃ p1 p2 q1 q2, p1 ≠ p2 ∧ followFrom mem stack p1 = some q1 ∧
        followFrom mem stack p2 = some q2 ∧ (deref mem q1).name = (deref mem q2).name) := by
  intro fuel
  induction fuel with
  | zero =>
    intro stack visited h
    cases stack <;> simp [isCyclicLoop] at h
  | succ n ih =>
    intro stack visited h
    cases stack with
    | nil => simp [isCyclicLoop] at h
    | cons cur rest =>
      unfold isCyclicLoop at h
      have h0 : followFrom mem (cur :: rest) [0] = some cur := by simp [followFrom, follow]
      by_cases hv : (deref mem cur).name ∈ visited
      · exact Or.inl ⟨[0], cur, h0, hv⟩
      · simp only [hv, if_false] at h
        rcases ih _ _ h with ⟨p, q, hp, hq⟩ | ⟨p1, p2, q1, q2, hne, h1, h2, hname⟩
        · have hb := followFrom_back mem cur rest p q hp
          rcases List.mem_cons.mp hq with hq | hq
          · exact Or.inr ⟨back rest p, [0], q, cur, hb.2, hb.1, h0, hq⟩
          · exact Or.inl ⟨back rest p, q, hb.1, hq⟩
        · have hb1 := followFrom_back mem cur rest p1 q1 h1
          have hb2 := followFrom_back mem cur rest p2 q2 h2
          refine Or.inr ⟨back rest p1, back rest p2, q1, q2, ?_, hb1.1, hb2.1, hname⟩
          intro e
          exact hne (back_injective rest p1 p2 (followFrom_ne_nil mem _ p1 q1 h1)
            (followFrom_ne_nil mem _ p2 q2 h2) e)

theorem name_injective (mem : List Item) (hnames : (mem.map Item.name).Nodup) (p q : Ptr)
    (hp : p < mem.length) (hq : q < mem.length)
    (h : (deref mem p).name = (deref mem q).name) : p = q := by
  unfold deref at h
  rw [List.getD_eq_getElem?_getD, List.getD_eq_getElem?_getD, List.getElem?_eq_getElem hp,
    List.getElem?_eq_getElem hq] at h
  simp only [Option.getD_some] at h
  have hp1 : p < (mem.map Item.name).length := by simpa using hp
  have hq1 : q < (mem.map Item.name).length := by simpa using hq
  have : (mem.map Item.name)[p] = (mem.map Item.name)[q] := by simpa using h
  exact (List.Nodup.getElem_inj_iff hnames).mp this

theorem follow_valid (mem : List Item)
    (hvalid : ∀ q x, x ∈ (deref mem q).parents → x < mem.length) :
    ∀ (path : List Nat) (p q : Ptr), p < mem.length → follow mem p path = some q →
      q < mem.length := by
  intro path
  induction path with
  | nil =>
    intro p q hp h
    simp only [follow, Option.some.injEq] at h
    rw [← h]; exact hp
  | cons j rest ih =>
    intro p q hp h
    unfold follow at h
    rcases hj : (deref mem p).parents[j]? with _ | x
    · simp [hj] at h
    · simp only [hj] at h
      exact ih x q (hvalid p x (List.mem_iff_getElem?.mpr ⟨j, hj⟩)) h

theorem dequeuedLoop_valid (mem : List Item)
    (hvalid : ∀ q x, x ∈ (deref mem q).parents → x < mem.length) :
    ∀ (fuel : Nat) (stack : List Ptr) (visited : List String),
      (∀ p ∈ stack, p < mem.length) →
      ∀ x ∈ dequeuedLoop mem fuel stack visited, x < mem.length := by
  intro fuel
  induction fuel with
  | zero =>
    intro stack visited _ x hx
    cases stack <;> simp [dequeuedLoop] at hx
  | succ n ih =>
    intro stack visited hs x hx
    cases stack with
    | nil => simp [dequeuedLoop] at hx
    | cons cur rest =>
      unfold dequeuedLoop at hx
      have hcur := hs cur (List.mem_cons_self _ _)
      by_cases hv : (deref mem cur).name ∈ visited
      · simp only [hv, if_true, List.mem_singleton] at hx
        rw [hx]; exact hcur
      · simp only [hv, if_false] at hx
        rcases List.mem_cons.mp hx with rfl | hx
        · exact hcur
        · refine ih _ _ ?_ x hx
          intro p hp
          rcases List.mem_append.mp hp with hp | hp
          · exact hs p (List.mem_cons_of_mem _ hp)
          · exact hvalid cur p hp

theorem isCyclicLoop_true_iff_dup (mem : List Item) :
    ∀ (fuel : Nat) (stack : List Ptr) (visited : List String) (b : Bool),
      visited.Nodup → isCyclicLoop mem fuel stack visited = some b →
      (b = true ↔
        ¬ (((dequeuedLoop mem fuel stack visited).map (fun p => (deref mem p).name))
            ++ visited).Nodup) := by
  intro fuel
  induction fuel with
  | zero =>
    intro stack visited b hn h
    cases stack with
    | nil =>
      simp only [isCyclicLoop, Option.some.injEq] at h
      simp [dequeuedLoop, hn, ← h]
    | cons c rest => simp [isCyclicLoop] at h
  | succ n ih =>
    intro stack visited b hn h
    cases stack with
    | nil =>
      simp only [isCyclicLoop, Option.some.injEq] at h
      simp [dequeuedLoop, hn, ← h]
    | cons cur rest =>
      unfold isCyclicLoop at h
      unfold dequeuedLoop
      by_cases hv : (deref mem cur).name ∈ visited
      · simp only [hv, if_true, Option.some.injEq] at h
        simp [hv, ← h]
      · simp only [hv, if_false] at h ⊢
        rw [ih _ _ b (List.nodup_cons.mpr ⟨hv, hn⟩) h]
        apply not_congr
        rw [List.map_cons, List.cons_append]
        exact List.Perm.nodup_iff List.perm_middle


theorem followFrom_singleton (mem : List Item) (item : Ptr) (path : List Nat) (q : Ptr)
    (h : followFrom mem [item] path = some q) :
    ∃ rest, path = 0 :: rest ∧ follow mem item rest = some q := by
  cases path with
  | nil => simp [followFrom] at h
  | cons i rest =>
    cases i with
    | zero => exact ⟨rest, rfl, by simpa [followFrom] using h⟩
    | succ i => simp [followFrom] at h

theorem isCyclic_true_iff_paths (mem : List Item) (item : Ptr) (hitem : item < mem.length)
    (hvalid : ∀ q x, x ∈ (deref mem q).parents → x < mem.length)
    (hnames : (mem.map Item.name).Nodup) :
    isCyclic mem item = some true ↔
      ∃ p1 p2 q, p1 ≠ p2 ∧ follow mem item p1 = some q ∧ follow mem item p2 = some q := by
  rw [isCyclic_eq_loop]
  constructor
  · intro h
    rcases isCyclicLoop_true_paths mem _ _ _ h with ⟨p, q, _, hq⟩ |
      ⟨p1, p2, q1, q2, hne, h1, h2, hname⟩
    · cases hq
    · rcases followFrom_singleton mem item p1 q1 h1 with ⟨r1, rfl, hr1⟩
      rcases followFrom_singleton mem item p2 q2 h2 with ⟨r2, rfl, hr2⟩
      have e : q1 = q2 := name_injective mem hnames q1 q2
        (follow_valid mem hvalid r1 item q1 hitem hr1)
        (follow_valid mem hvalid r2 item q2 hitem hr2) hname
      refine ⟨r1, r2, q1, fun e1 => hne (by rw [e1]), hr1, by rw [e]; exact hr2⟩
  · rintro ⟨p1, p2, q, hne, h1, h2⟩
    have hs := isCyclic_isSome mem item
    rw [isCyclic_eq_loop] at hs
    rcases hb : isCyclicLoop mem (mem.length + 2) [item] [] with _ | b
    · rw [hb] at hs; cases hs
    · cases b
      · exfalso
        have key := (isCyclicLoop_false_paths mem _ _ _ hb).2 (0 :: p1) (0 :: p2) q q
          (by simpa [followFrom] using h1) (by simpa [followFrom] using h2) rfl
        simp only [List.cons.injEq, true_and] at key
        exact hne key
      · rfl

/-- C18: for a memory with distinct names and valid parent pointers, `isCyclic(item)`
returns `true` exactly when the items it dequeues contain a repetition, which is
exactly when two distinct paths of parent links from `item` (a path is a sequence
of positions in `parents` lists, the empty one included) lead to the same item;
it returns `false` exactly when the path to each ancestor of `item` is unique. -/
theorem isCyclic_characterisation (mem : List Item) (item : Ptr) (hitem : item < mem.length)
    (hvalid : ∀ q x, x ∈ (deref mem q).parents → x < mem.length)
    (hnames : (mem.map Item.name).Nodup) :
    (isCyclic mem item = some true ↔ ¬ (dequeued mem item).Nodup) ∧
    (isCyclic mem item = some true ↔
      ∃ p1 p2 q, p1 ≠ p2 ∧ follow mem item p1 = some q ∧ follow mem item p2 = some q) ∧
    (isCyclic mem item = some false ↔
      ∀ p1 p2 q, follow mem item p1 = some q → follow mem item p2 = some q → p1 = p2) := by
  have hpaths := isCyclic_true_iff_paths mem item hitem hvalid hnames
  have hs := isCyclic_isSome mem item
  refine ⟨?_, hpaths, ?_⟩
  · unfold isCyclic dequeued
    by_cases h0 : (deref mem item).parents.length = 0
    · simp [h0]
    · simp only [h0, if_false]
      rcases hb : isCyclicLoop mem (mem.length + 2) [item] [] with _ | b
      · unfold isCyclic at hs
        simp only [h0, if_false] at hs
        rw [hb] at hs; cases hs
      · have key := isCyclicLoop_true_iff_dup mem _ _ _ b List.nodup_nil hb
        rw [List.append_nil] at key
        have hval := dequeuedLoop_valid mem hvalid (mem.length + 2) [item] []
          (fun p hp => by rw [List.mem_singleton.mp hp]; exact hitem)
        have hmap : ((dequeuedLoop mem (mem.length + 2) [item] []).map
            (fun p => (deref mem p).name)).Nodup ↔
            (dequeuedLoop mem (mem.length + 2) [item] []).Nodup :=
          ⟨List.Nodup.of_map _, List.Nodup.map_on (fun x hx y hy hxy =>
            name_injective mem hnames x y (hval x hx) (hval y hy) hxy)⟩
        rw [← hmap, ← key]
        simp
  · rcases hb : isCyclic mem item with _ | b
    · rw [hb] at hs; cases hs
    · cases b
      · simp only [true_iff]
        intro p1 p2 q h1 h2
        by_contra hne
        have := hpaths.mpr ⟨p1, p2, q, hne, h1, h2⟩
        rw [hb] at this
        cases this
      · simp only [Option.some.injEq, Bool.true_eq_false, false_iff]
        intro hall
        rcases hpaths.mp hb with ⟨p1, p2, q, hne, h1, h2⟩
        exact hne (hall p1 p2 q h1 h2)

theorem diamond_parents_valid (q x : Ptr) (h : x ∈ (deref diamond.mem q).parents) :
    x < diamond.mem.length := by
  by_cases hq : q < 4
  · have key : ∀ k, k < 4 → ∀ y ∈ (deref diamond.mem k).parents, y < 4 := by decide
    exact key q hq x h
  · rw [deref_of_le _ _ (by
      have : diamond.mem.length = 4 := rfl
      rw [this]; exact Nat.le_of_not_lt hq)] at h
    cases h

theorem isCyclic_characterisation_witness :
    isCyclic diamond.mem 3 = some true ∧ ¬ (dequeued diamond.mem 3).Nodup ∧
      ∃ p1 p2 q, p1 ≠ p2 ∧ follow diamond.mem 3 p1 = some q ∧
        follow diamond.mem 3 p2 = some q :=
  ⟨by decide,
    (isCyclic_characterisation diamond.mem 3 (by decide) diamond_parents_valid
      (by decide)).1.mp (by decide),
    (isCyclic_characterisation diamond.mem 3 (by decide) diamond_parents_valid
      (by decide)).2.1.mp (by decide)⟩

/-! ### Rendering -/

theorem char_lt_iff (a b : Char) : a < b ↔ a.toNat < b.toNat := by
  rfl

theorem char_eq_of_toNat (a b : Char) (h1 : ¬ a.toNat < b.toNat) (h2 : ¬ b.toNat < a.toNat) :
    a = b := by
  apply le_antisymm
  · exact not_lt.mp (fun h => h2 ((char_lt_iff b a).mp h))
  · exact not_lt.mp (fun h => h1 ((char_lt_iff a b).mp h))

theorem chars_cons_lt_cons (a b : Char) (as bs : List Char) :
    a :: as < b :: bs ↔ a < b ∨ (a = b ∧ as < bs) := by
  constructor
  · intro h
    change List.Lex (· < ·) (a :: as) (b :: bs) at h
    cases h with
    | cons h => exact Or.inr ⟨rfl, h⟩
    | rel h => exact Or.inl h
  · rintro (h | ⟨rfl, h⟩)
    · exact List.Lex.rel h
    · exact List.Lex.cons h

theorem leChars_iff : ∀ (as bs : List Char), leChars as bs = true ↔ as ≤ bs := by
  intro as
  induction as with
  | nil =>
    intro bs
    simp only [leChars, true_iff]
    exact not_lt.mp (by
      intro h
      change List.Lex (· < ·) bs [] at h
      cases h)
  | cons a as ih =>
    intro bs
    cases bs with
    | nil =>
      simp only [leChars, Bool.false_eq_true, false_iff, not_le]
      exact List.Lex.nil
    | cons b bs =>
      unfold leChars
      rw [← not_lt, chars_cons_lt_cons]
      by_cases h1 : a.toNat < b.toNat
      · simp only [h1, if_true, true_iff]
        rintro (h | ⟨rfl, _⟩)
        · exact absurd ((char_lt_iff b a).mp h) (by omega)
        · omega
      · by_cases h2 : b.toNat < a.toNat
        · simp only [h1, h2, if_true, if_false, Bool.false_eq_true, false_iff, not_not]
          exact Or.inl ((char_lt_iff b a).mpr h2)
        · simp only [h1, h2, if_false]
          have e := char_eq_of_toNat a b h1 h2
          subst e
          rw [ih bs, ← not_lt]
          simp

theorem strLe_iff (a b : String) : strLe a b = true ↔ a ≤ b := by
  unfold strLe
  rw [leChars_iff, String.le_iff_toList_le]
  rfl

theorem sortStrings_eq (l : List String) :
    sortStrings l = l.insertionSort (fun a b => a ≤ b) := by
  unfold sortStrings
  induction l with
  | nil => rfl
  | cons a l ih =>
    simp only [List.insertionSort, ih]
    generalize List.insertionSort (fun a b => a ≤ b) l = m
    induction m with
    | nil => rfl
    | cons b m ihm =>
      simp only [List.orderedInsert]
      by_cases h : a ≤ b
      · simp [h, (strLe_iff a b).mpr h]
      · have : ¬ strLe a b = true := fun e => h ((strLe_iff a b).mp e)
        simp [h, this, ihm]

theorem sortStrings_sorted (l : List String) : (sortStrings l).Sorted (· ≤ ·) := by
  rw [sortStrings_eq]
  exact List.sorted_insertionSort _ l

theorem sortStrings_perm (l : List String) : (sortStrings l).Perm l := by
  rw [sortStrings_eq]
  exact List.perm_insertionSort _ l

theorem sortStrings_eq_of_perm (l1 l2 : List String) (h : l1.Perm l2) :
    sortStrings l1 = sortStrings l2 :=
  List.eq_of_perm_of_sorted
    (((sortStrings_perm l1).trans h).trans (sortStrings_perm l2).symm)
    (sortStrings_sorted l1) (sortStrings_sorted l2)

/-- C14: `String()` leaves the state as it was, so a second call renders the same
string; the rendering is the lines joined by the carriage return, with one line
per registered name, the names in ascending order, each line being the name, then
` -> `, then the names of the children of that item in ascending order joined by
a comma and a space. -/
theorem string_format (w : World) :
    (Graph.String w).1 = w ∧ (Graph.String (Graph.String w).1).2 = (Graph.String w).2 ∧
    ∃ names lines : List String,
      names.Perm (w.g.items.map Prod.fst) ∧ names.Sorted (· ≤ ·) ∧
      (Graph.String w).2 = "\r".intercalate lines ∧
      List.Forall₂ (fun name line => ∃ children : List String,
        children.Perm (childNames w name) ∧ children.Sorted (· ≤ ·) ∧
        line = name ++ " -> " ++ ", ".intercalate children) names lines := by
  refine ⟨rfl, rfl, nodeNames w, _, sortStrings_perm _, sortStrings_sorted _, rfl, ?_⟩
  rw [List.forall₂_map_right_iff]
  apply List.forall₂_same.mpr
  intro name _
  exact ⟨_, sortStrings_perm _, sortStrings_sorted _, rfl⟩

/-- C15: two graphs whose registered names are the same and in which, under every
registered name, the child names are permutations of each other, render the same
string. -/
theorem string_order_independent (w1 w2 : World)
    (hnames : (w1.g.items.map Prod.fst).Perm (w2.g.items.map Prod.fst))
    (hchildren : ∀ name ∈ w1.g.items.map Prod.fst,
      (childNames w1 name).Perm (childNames w2 name)) :
    (Graph.String w1).2 = (Graph.String w2).2 := by
  unfold Graph.String nodeNames
  simp only []
  rw [← sortStrings_eq_of_perm _ _ hnames]
  congr 1
  apply List.map_congr_left
  intro name hname
  have hmem : name ∈ w1.g.items.map Prod.fst := (sortStrings_perm _).subset hname
  rw [sortStrings_eq_of_perm _ _ (hchildren name hmem)]

theorem fanYZ_built :
    AddItemRelations threeItems [(0, 1), (0, 2)] = some (fanYZ, [none, none]) := by
  decide

theorem fanZY_built :
    AddItemRelations threeItems [(0, 2), (0, 1)] = some (fanZY, [none, none]) := by
  decide

theorem string_order_independent_witness :
    (Graph.String fanYZ).2 = (Graph.String fanZY).2 ∧
      (Graph.String fanYZ).2 = "x -> y, z\ry -> \rz -> " :=
  ⟨string_order_independent fanYZ fanZY (by decide) (by decide), by decide⟩

/-! ### Ordering of the walk -/

theorem split_snoc {α : Type} (pre post tr : List α) (a e : α)
    (h : tr ++ [e] = pre ++ a :: post) :
    (post = [] ∧ pre = tr ∧ a = e) ∨ ∃ post1, post = post1 ++ [e] ∧ tr = pre ++ a :: post1 := by
  rcases List.eq_nil_or_concat post with rfl | ⟨post1, b, rfl⟩
  · left
    have := List.append_inj' h (by simp)
    simp only [List.cons.injEq, and_true] at this
    exact ⟨rfl, this.1.symm, this.2.symm⟩
  · right
    have h2 : tr ++ [e] = (pre ++ a :: post1) ++ [b] := by
      rw [h]; simp
    have := List.append_inj' h2 (by simp)
    simp only [List.cons.injEq, and_true] at this
    exact ⟨post1, by rw [this.2, List.concat_eq_append], this.1⟩

theorem Released_mono (w : World) (tr : List Event) (e : Event) (x : Ptr)
    (h : Released w tr x) : Released w (tr ++ [e]) x := by
  rcases h with h | ⟨q, hq, hok⟩
  · exact Or.inl h
  · exact Or.inr ⟨q, hq, List.mem_append_left _ hok⟩

theorem Ordered_stepMain (w : World) (cb : Callback) (s s1 : Walk) (hs : Ordered w cb s)
    (h : stepMain w s = some s1) : Ordered w cb s1 := by
  obtain ⟨pc, stack, visited, errors, gor, trace⟩ := s
  obtain ⟨hst, hcur, hgo, htr, hok⟩ := hs
  simp only at hst hcur hgo htr hok
  cases pc with
  | top =>
    simp only [stepMain] at h
    split at h <;>
    · simp only [Option.some.injEq] at h
      subst h
      exact ⟨hst, by simp [current], hgo, htr, hok⟩
  | deq =>
    simp only [stepMain] at h
    cases stack with
    | nil => cases h
    | cons c rest =>
      simp only [Option.some.injEq] at h
      subst h
      refine ⟨fun x hx => hst x (List.mem_cons_of_mem _ hx), ?_, hgo, htr, hok⟩
      intro x hx
      simp only [current, Option.some.injEq] at hx
      rw [← hx]
      exact hst c (List.mem_cons_self _ _)
  | check cur ps =>
    have hc := hcur cur rfl
    cases ps with
    | nil =>
      simp only [stepMain, Option.some.injEq] at h
      subst h
      refine ⟨hst, ?_, hgo, htr, hok⟩
      intro x hx
      simp only [current, Option.some.injEq] at hx
      rw [← hx]; exact hc
    | cons p rest =>
      simp only [stepMain] at h
      split at h <;>
      · simp only [Option.some.injEq] at h
        subst h
        refine ⟨hst, ?_, hgo, htr, hok⟩
        intro x hx
        simp only [current, Option.some.injEq] at hx
        rw [← hx]; exact hc
  | requeue cur ps =>
    have hc := hcur cur rfl
    simp only [stepMain, Option.some.injEq] at h
    subst h
    refine ⟨?_, ?_, hgo, htr, hok⟩
    · intro x hx
      rcases List.mem_append.mp hx with hx | hx
      · exact hst x hx
      · rw [List.mem_singleton.mp hx]; exact hc
    · intro x hx
      simp only [current, Option.some.injEq] at hx
      rw [← hx]; exact hc
  | launch cur =>
    have hc := hcur cur rfl
    simp only [stepMain, Option.some.injEq] at h
    subst h
    refine ⟨hst, by simp [current], ?_, htr, hok⟩
    intro x gs hm
    rcases List.mem_append.mp hm with hm | hm
    · exact hgo x gs hm
    · simp only [List.mem_singleton, Prod.mk.injEq] at hm
      rcases hm with ⟨rfl, rfl⟩
      refine ⟨hc, (fun e => by cases e), fun r hr => ?_⟩
      rcases hr with hr | hr <;> cases hr
  | len =>
    simp only [stepMain] at h
    split at h <;>
    · simp only [Option.some.injEq] at h
      subst h
      exact ⟨hst, by simp [current], hgo, htr, hok⟩
  | wait =>
    simp only [stepMain] at h
    split at h
    · simp only [Option.some.injEq] at h
      subst h
      exact ⟨hst, by simp [current], hgo, htr, hok⟩
    · cases h
  | done r => simp [stepMain] at h


theorem Ordered_visit (w : World) (hm : Mirrored w.mem) (cb : Callback) (k : Nat)
    (s s1 : Walk) (hs : Ordered w cb s) (h : visit w cb k s = some s1) : Ordered w cb s1 := by
  obtain ⟨pc, stack, visited, errors, gor, trace⟩ := s
  obtain ⟨hst, hcur, hgo, htr, hok⟩ := hs
  simp only at hst hcur hgo htr hok
  unfold visit at h
  simp only at h
  rcases hk : gor[k]? with _ | ⟨i, g⟩
  · simp [hk] at h
  · have hmem : (i, g) ∈ gor := List.mem_iff_getElem?.mpr ⟨k, hk⟩
    have hi := hgo i g hmem
    -- adding one event and moving goroutine `k` to a new state
    have hlog : ∀ (e : Event) (g1 : GState),
        (∀ x, e = Event.start x → x = i) →
        (∀ x, e = Event.ok x → ∃ n, cb n x = none) →
        (g1 = GState.returned none → Event.ok i ∈ trace ++ [e]) →
        (∀ r, (g1 = GState.running r ∨ g1 = GState.returned r) → ∃ n, cb n i = r) →
        Ordered w cb ⟨pc, stack, visited, errors, gor.set k (i, g1), trace ++ [e]⟩ := by
      intro e g1 he1 he2 hg1 hg2
      refine ⟨fun x hx => Released_mono w _ e x (hst x hx),
        fun x hx => Released_mono w _ e x (hcur x hx), ?_, ?_, ?_⟩
      · intro x gs hx
        rcases List.mem_or_eq_of_mem_set hx with hx | hx
        · have := hgo x gs hx
          exact ⟨Released_mono w _ e x this.1,
            fun e1 => List.mem_append_left _ (this.2.1 e1), this.2.2⟩
        · simp only [Prod.mk.injEq] at hx
          rcases hx with ⟨rfl, rfl⟩
          exact ⟨Released_mono w _ e _ hi.1, hg1, hg2⟩
      · intro pre post x hsplit
        rcases split_snoc pre post trace (Event.start x) e hsplit with ⟨_, hpre, hev⟩ |
          ⟨post1, _, htr1⟩
        · rw [hpre, he1 x hev.symm]
          exact hi.1
        · exact htr pre post1 x htr1
      · intro x hx
        rcases List.mem_append.mp hx with hx | hx
        · exact hok x hx
        · exact he2 x (List.mem_singleton.mp hx).symm
    -- removing goroutine `k`, possibly pushing items and changing unrelated fields
    have hdrop : ∀ (extra : List Ptr) (vis errs : List String),
        (∀ x ∈ extra, Released w trace x) →
        Ordered w cb ⟨pc, stack ++ extra, vis, errs, gor.eraseIdx k, trace⟩ := by
      intro extra vis errs hex
      refine ⟨?_, hcur, fun x gs hx => hgo x gs (List.mem_of_mem_eraseIdx hx), htr, hok⟩
      intro x hx
      rcases List.mem_append.mp hx with hx | hx
      · exact hst x hx
      · exact hex x hx
    rcases g with _ | r | r
    · simp only [hk, Option.some.injEq] at h
      subst h
      refine hlog _ _ (fun x e => ?_) (fun x e => by cases e) (fun e => by cases e)
        (fun r hr => ?_)
      · simp only [Event.start.injEq] at e
        exact e.symm
      · rcases hr with hr | hr
        · simp only [GState.running.injEq] at hr
          exact ⟨_, hr⟩
        · cases hr
    · have hr0 := hi.2.2 r (Or.inl rfl)
      cases r with
      | none =>
        simp only [hk, Option.some.injEq] at h
        subst h
        refine hlog _ _ (fun x e => by cases e) (fun x e => ?_)
          (fun _ => List.mem_append_right _ (List.mem_singleton.mpr rfl)) (fun r hr => ?_)
        · simp only [Event.ok.injEq] at e
          rw [← e]; exact hr0
        · rcases hr with hr | hr
          · cases hr
          · simp only [GState.returned.injEq] at hr
            rw [← hr]; exact hr0
      | some e0 =>
        simp only [hk, Option.some.injEq] at h
        subst h
        refine hlog _ _ (fun x e => by cases e) (fun x e => by cases e)
          (fun e => by cases e) (fun r hr => ?_)
        rcases hr with hr | hr
        · cases hr
        · simp only [GState.returned.injEq] at hr
          rw [← hr]; exact hr0
    · cases r with
      | none =>
        simp only [hk, Option.some.injEq] at h
        subst h
        apply hdrop
        intro c hc
        right
        refine ⟨i, ?_, hi.2.1 rfl⟩
        exact (ParentLink_iff_ChildEdge w.mem hm c i).mpr hc
      | some e0 =>
        simp only [hk] at h
        split at h
        · simp only [Option.some.injEq] at h
          subst h
          have := hdrop [] visited (errors ++ [e0]) (fun x hx => by cases hx)
          simpa using this
        · cases h

theorem Ordered_reach (w : World) (hm : Mirrored w.mem) (cb : Callback) (s : Walk)
    (h : WalkReach w cb s) : Ordered w cb s := by
  induction h with
  | start hs =>
    rcases hs with ⟨order, hp, rfl⟩
    unfold walkStart
    split
    · refine ⟨?_, ?_, ?_, ?_, ?_⟩ <;> simp [walkNoItems, current]
    · refine ⟨?_, by simp [walkEntry, current], by simp [walkEntry], by simp [walkEntry],
        by simp [walkEntry]⟩
      intro x hx
      have hx1 : x ∈ readyItems w := hp.subset hx
      unfold readyItems at hx1
      have := (List.mem_filter.mp hx1).2
      left
      exact List.length_eq_zero.mp (by simpa using this)
  | step c _ hstep ih =>
    cases c with
    | main => exact Ordered_stepMain w cb _ _ ih hstep
    | go k => exact Ordered_visit w hm cb k _ _ ih hstep

/-- C11: in every walk of a reachable graph, with any callback, an item whose
only parent is `p` has its callback started only after the callback of `p` has
returned `nil`; and if the callback never returns `nil` on `p`, the callback of
the item is never started. -/
theorem single_parent_after_parent (w : World) (hw : Reachable w) (cb : Callback)
    (s : Walk) (hs : WalkReach w cb s) (x p : Ptr)
    (hx : (deref w.mem x).parents = [p]) :
    (∀ pre post, s.trace = pre ++ Event.start x :: post → Event.ok p ∈ pre) ∧
      ((∀ n, cb n p ≠ none) → Event.start x ∉ s.trace) := by
  obtain ⟨_, _, _, htr, hok⟩ := Ordered_reach w (Reachable_inv w hw).2.1 cb s hs
  have key : ∀ pre post, s.trace = pre ++ Event.start x :: post → Event.ok p ∈ pre := by
    intro pre post hsplit
    rcases htr pre post x hsplit with h0 | ⟨q, hq, hq1⟩
    · rw [hx] at h0; cases h0
    · rw [hx] at hq
      rw [← List.mem_singleton.mp hq]
      exact hq1
  refine ⟨key, fun hfail hstart => ?_⟩
  rcases List.append_of_mem hstart with ⟨pre, post, hsplit⟩
  have hp := key pre post hsplit
  rcases hok p (by rw [hsplit]; exact List.mem_append_left _ hp) with ⟨n, hn⟩
  exact hfail n hn

theorem chain_failed_reach :
    WalkReach chain (cbFailAt 0) ⟨PC.done none, [], [], ["boom"], [],
      [Event.start 0, Event.fail 0 "boom"]⟩ :=
  WalkReach_WalkForExecution chain (cbFailAt 0) [0] schedChain _ (by decide) (by decide)

theorem single_parent_after_parent_witness :
    Reachable chain ∧
      WalkReach chain (cbFailAt 0) ⟨PC.done none, [], [], ["boom"], [],
        [Event.start 0, Event.fail 0 "boom"]⟩ ∧
      Event.start 1 ∉ [Event.start 0, Event.fail 0 "boom"] :=
  ⟨Reachable_chain, chain_failed_reach,
    (single_parent_after_parent chain Reachable_chain (cbFailAt 0) _ chain_failed_reach
      1 0 (by decide)).2 (by intro n; simp [cbFailAt])⟩

theorem not_mem_keys_of_lookup_none {α : Type} (m : List (String × α)) (k : String)
    (h : mapGet m k = none) : k ∉ m.map Prod.fst := by
  unfold mapGet at h
  induction m with
  | nil => simp
  | cons hd tl ih =>
    rcases hd with ⟨a, b⟩
    rw [List.lookup_cons] at h
    cases hka : (k == a)
    · rw [hka] at h
      simp only [List.map_cons, List.mem_cons, not_or]
      exact ⟨by simpa using hka, ih h⟩
    · rw [hka] at h
      cases h

theorem Registry_reach (w : World) (h : Reachable w) : Registry w := by
  induction h with
  | newGraph => exact ⟨by simp [World.empty, NewGraph], by simp [World.empty, NewGraph]⟩
  | @newItem w0 n v _ ih =>
    refine ⟨fun e he => ?_, ih.2⟩
    have := ih.1 e he
    have hl : (NewItem w0 n v).1.mem.length = w0.mem.length + 1 := by simp [NewItem]
    refine ⟨by rw [hl]; exact Nat.lt_succ_of_lt this.1, ?_⟩
    rw [deref_newItem, if_neg (Nat.ne_of_lt this.1)]
    exact this.2
  | @addItem w0 i _ hi ih =>
    rcases AddItem_cases w0 i with ⟨_, heq⟩ | ⟨hnone, _, hmem, _, hitems, _⟩
    · rw [heq]; exact ih
    · unfold Registry
      rw [hmem, hitems]
      refine ⟨fun e he => ?_, ?_⟩
      · rcases List.mem_append.mp he with he | he
        · exact ih.1 e he
        · rw [List.mem_singleton.mp he]
          exact ⟨hi, rfl⟩
      · rw [List.map_append, List.nodup_append]
        refine ⟨ih.2, by simp, ?_⟩
        intro a ha hb
        simp only [List.map_cons, List.map_nil, List.mem_singleton] at hb
        rw [hb] at ha
        exact not_mem_keys_of_lookup_none _ _ hnone ha
  | @addItemRelation w0 w1 i1 i2 e _ h1 h2 heq ih =>
    rcases AddItemRelation_mem w0 w1 i1 i2 e h1 h2 heq with ⟨_, _, hm, hi, _⟩ | ⟨_, _, rfl⟩
    · unfold Registry
      rw [hm, hi]
      exact ih
    · unfold Registry
      rw [link_items, link_length]
      refine ⟨fun e he => ?_, ih.2⟩
      have := ih.1 e he
      refine ⟨this.1, ?_⟩
      rw [deref_link w0 i1 i2 e.2 h1 h2]
      exact this.2

theorem registered_nodup (w : World) (h : Registry w) : (w.g.items.map Prod.snd).Nodup := by
  have hkeys : w.g.items.map Prod.fst
      = (w.g.items.map Prod.snd).map (fun p => (deref w.mem p).name) := by
    rw [List.map_map]
    apply List.map_congr_left
    intro e he
    exact (h.1 e he).2
  have := h.2
  rw [hkeys] at this
  exact List.Nodup.of_map _ this

theorem registered_name_injective (w : World) (h : Registry w) (p q : Ptr)
    (hp : p ∈ w.g.items.map Prod.snd) (hq : q ∈ w.g.items.map Prod.snd)
    (hname : (deref w.mem p).name = (deref w.mem q).name) : p = q := by
  have hkeys : w.g.items.map Prod.fst
      = (w.g.items.map Prod.snd).map (fun p => (deref w.mem p).name) := by
    rw [List.map_map]
    apply List.map_congr_left
    intro e he
    exact (h.1 e he).2
  have := h.2
  rw [hkeys] at this
  exact List.inj_on_of_nodup_map this hp hq hname

theorem gsum_append (f : Ptr × GState → Nat) (l : List (Ptr × GState)) (v : Ptr × GState) :
    gsum f (l ++ [v]) = gsum f l + f v := by
  simp [gsum]

theorem gsum_set (f : Ptr × GState → Nat) :
    ∀ (l : List (Ptr × GState)) (k : Nat) (old v : Ptr × GState), l[k]? = some old →
      gsum f (l.set k v) + f old = gsum f l + f v := by
  intro l
  induction l with
  | nil => intro k old v h; simp at h
  | cons hd tl ih =>
    intro k old v h
    cases k with
    | zero =>
      simp only [List.getElem?_cons_zero, Option.some.injEq] at h
      subst h
      simp only [gsum, List.set_cons_zero, List.map_cons, List.sum_cons]
      omega
    | succ k =>
      simp only [List.getElem?_cons_succ] at h
      have := ih k old v h
      simp only [gsum, List.set_cons_succ, List.map_cons, List.sum_cons] at this ⊢
      omega

theorem gsum_eraseIdx (f : Ptr × GState → Nat) :
    ∀ (l : List (Ptr × GState)) (k : Nat) (old : Ptr × GState), l[k]? = some old →
      gsum f (l.eraseIdx k) + f old = gsum f l := by
  intro l
  induction l with
  | nil => intro k old h; simp at h
  | cons hd tl ih =>
    intro k old h
    cases k with
    | zero =>
      simp only [List.getElem?_cons_zero, Option.some.injEq] at h
      subst h
      simp only [gsum, List.eraseIdx_cons_zero, List.map_cons, List.sum_cons]
      omega
    | succ k =>
      simp only [List.getElem?_cons_succ] at h
      have := ih k old h
      simp only [gsum, List.eraseIdx_cons_succ, List.map_cons, List.sum_cons] at this ⊢
      omega

theorem sum_filter_remove (f : Ptr → Nat) (P Q : Ptr → Bool) (i : Ptr) :
    ∀ (l : List Ptr), l.Nodup → i ∈ l → P i = true →
      (∀ x ∈ l, Q x = (P x && decide (x ≠ i))) →
      ((l.filter Q).map f).sum + f i = ((l.filter P).map f).sum := by
  intro l
  induction l with
  | nil => intro _ hi; cases hi
  | cons a l ih =>
    intro hn hi hP hQ
    rw [List.nodup_cons] at hn
    by_cases ha : a = i
    · subst ha
      have hq : Q a = false := by rw [hQ a (List.mem_cons_self _ _)]; simp
      have hrest : l.filter Q = l.filter P := by
        apply List.filter_congr
        intro x hx
        rw [hQ x (List.mem_cons_of_mem _ hx)]
        have : x ≠ a := fun e => hn.1 (e ▸ hx)
        simp [this]
      simp [List.filter_cons, hq, hP, hrest]
      omega
    · have hi1 : i ∈ l := by
        rcases List.mem_cons.mp hi with e | e
        · exact absurd e.symm ha
        · exact e
      have key := ih hn.2 hi1 hP (fun x hx => hQ x (List.mem_cons_of_mem _ hx))
      have hqa : Q a = P a := by
        rw [hQ a (List.mem_cons_self _ _)]
        simp [ha]
      cases hpa : P a
      · simp [List.filter_cons, hqa, hpa, key]
      · simp [List.filter_cons, hqa, hpa]
        omega


theorem ForestInv_of_eq (w : World) (s s1 : Walk) (hs : ForestInv w s)
    (htok : ∀ x, tokens s1 x = tokens s x) (hvis : s1.visited = s.visited)
    (htr : s1.trace = s.trace)
    (hstart : ∀ x, gsum (startedIn x) s1.goroutines = gsum (startedIn x) s.goroutines)
    (hcheck : ∀ x ps, s1.pc = PC.check x ps → ∀ q ∈ ps, (deref w.mem q).name ∈ s1.visited)
    (hreq : ∀ x ps, s1.pc ≠ PC.requeue x ps)
    (htop : s1.pc = PC.top → s1.stack ≠ [] ∨ s1.goroutines = [])
    (hdeq : s1.pc = PC.deq → s1.stack ≠ [])
    (hdone : ∀ r, s1.pc = PC.done r → s1.stack = [] ∧ s1.goroutines = [])
    (hres : ∀ x gs r, (x, gs) ∈ s1.goroutines →
      (gs = GState.running r ∨ gs = GState.returned r) → r = none) :
    ForestInv w s1 := by
  obtain ⟨h0, h1, h1', h2, _, _, _, _, _, _, h6⟩ := hs
  have hfin : ∀ x, finished w s1 x = finished w s x := by
    intro x; unfold finished; rw [hvis]
  refine ⟨?_, ?_, ?_, ?_, hcheck, hreq, htop, hdeq, hdone, hres, ?_⟩
  · intro x hx
    rw [htok] at hx
    exact h0 x hx
  · intro x hx hp
    rw [htok, hfin]
    exact h1 x hx hp
  · intro x p hx hp
    rw [htok, hfin, hfin]
    exact h1' x p hx hp
  · intro x hx
    rw [htok, hfin]
    exact h2 x hx
  · intro x hx
    rw [htr, hstart, hfin]
    exact h6 x hx

theorem ForestInv_stepMain (w : World) (hf : Forest w) (s s1 : Walk) (hs : ForestInv w s)
    (h : stepMain w s = some s1) : ForestInv w s1 ∧ walkMeasure w s1 < walkMeasure w s := by
  have hs0 := hs
  obtain ⟨pc, stack, visited, errors, gor, trace⟩ := s
  obtain ⟨h0, h1, h1', h2, hcheck, hreq, htop, hdeq, hdone, hres, h6⟩ := hs
  simp only at hcheck hreq htop hdeq hdone hres
  cases pc with
  | top =>
    simp only [stepMain] at h
    by_cases hl : stack.length = 0
    · simp only [hl, if_true, Option.some.injEq] at h
      subst h
      have hnil : stack = [] := List.length_eq_zero.mp hl
      have hg : gor = [] := by
        rcases htop rfl with h | h
        · exact absurd hnil h
        · exact h
      refine ⟨ForestInv_of_eq w _ _ hs0 (fun x => by simp [tokens, held, current]) rfl rfl
        (fun x => rfl) (by simp) (by simp) (by simp) (by simp) (by simp [hnil, hg]) hres, ?_⟩
      simp [walkMeasure, pcWeight]
    · simp only [hl, if_false, Option.some.injEq] at h
      subst h
      refine ⟨ForestInv_of_eq w _ _ hs0 (fun x => by simp [tokens, held, current]) rfl rfl
        (fun x => rfl) (by simp) (by simp) (by simp)
        (fun _ e => hl (List.length_eq_zero.mpr e)) (by simp) hres, ?_⟩
      simp [walkMeasure, pcWeight]
  | deq =>
    simp only [stepMain] at h
    cases stack with
    | nil => cases h
    | cons c rest =>
      simp only [Option.some.injEq] at h
      subst h
      have htokc : 0 < tokens ⟨PC.deq, c :: rest, visited, errors, gor, trace⟩ c := by
        simp [tokens]
      have hc := h0 c htokc
      have hpar := hf.2.2 c hc
      refine ⟨ForestInv_of_eq w _ _ hs0 (fun x => ?_) rfl rfl
        (fun x => rfl) ?_ (by simp) (by simp) (by simp) (by simp) hres, ?_⟩
      · simp only [tokens, held, current, List.count_cons, Option.some.injEq]
        by_cases e : c = x
        · simp [e]
        · simp [e]
      · intro x ps hx q hq
        simp only [PC.check.injEq] at hx
        rw [← hx.2] at hq
        rcases hps : (deref w.mem c).parents with _ | ⟨p, tl⟩
        · rw [hps] at hq; cases hq
        · rw [hps] at hpar hq
          have htl : tl = [] := by
            cases tl with
            | nil => rfl
            | cons a b => simp at hpar
          subst htl
          rw [List.mem_singleton.mp hq]
          have := h1' c p hc hps
          have hpos : 0 < finished w ⟨PC.deq, c :: rest, visited, errors, gor, trace⟩ p := by
            omega
          exact List.count_pos_iff.mp hpos
      · simp only [walkMeasure, pcWeight, List.length_cons]
        omega
  | check cur ps =>
    cases ps with
    | nil =>
      simp only [stepMain, Option.some.injEq] at h
      subst h
      refine ⟨ForestInv_of_eq w _ _ hs0 (fun x => by simp [tokens, held, current]) rfl rfl
        (fun x => rfl) (by simp) (by simp) (by simp) (by simp) (by simp) hres, ?_⟩
      simp [walkMeasure, pcWeight]
    | cons p rest =>
      simp only [stepMain] at h
      have hp := hcheck cur (p :: rest) rfl p (List.mem_cons_self _ _)
      simp only [hp, if_true, Option.some.injEq] at h
      subst h
      refine ⟨ForestInv_of_eq w _ _ hs0 (fun x => by simp [tokens, held, current]) rfl rfl
        (fun x => rfl) ?_ (by simp) (by simp) (by simp) (by simp) hres, ?_⟩
      · intro x ps hx q hq
        simp only [PC.check.injEq] at hx
        rw [← hx.2] at hq
        exact hcheck cur (p :: rest) rfl q (List.mem_cons_of_mem _ hq)
      · simp [walkMeasure, pcWeight]
  | requeue cur ps => exact absurd rfl (hreq cur ps)
  | launch cur =>
    simp only [stepMain, Option.some.injEq] at h
    subst h
    refine ⟨ForestInv_of_eq w _ _ hs0 (fun x => ?_) rfl rfl
      (fun x => ?_) (by simp) (by simp) (by simp) (by simp) (by simp) ?_, ?_⟩
    · by_cases e : cur = x
      · subst e
        simp only [tokens, held, current, gsum_append, inFlight, if_true]
        simp
        omega
      · have e1 : ¬ some cur = some x := fun h => e (Option.some.inj h)
        simp [tokens, held, current, gsum_append, inFlight, e, e1]
    · simp [gsum_append, startedIn]
    · intro x gs r hm hr
      rcases List.mem_append.mp hm with hm | hm
      · exact hres x gs r hm hr
      · simp only [List.mem_singleton, Prod.mk.injEq] at hm
        rcases hm with ⟨_, rfl⟩
        rcases hr with hr | hr <;> cases hr
    · simp only [walkMeasure, pcWeight, gsum_append, gweight]
      omega
  | len =>
    simp only [stepMain] at h
    by_cases hl : stack.length = 0
    · simp only [hl, if_true, Option.some.injEq] at h
      subst h
      refine ⟨ForestInv_of_eq w _ _ hs0 (fun x => by simp [tokens, held, current]) rfl rfl
        (fun x => rfl) (by simp) (by simp) (by simp) (by simp) (by simp) hres, ?_⟩
      simp [walkMeasure, pcWeight]
    · simp only [hl, if_false, Option.some.injEq] at h
      subst h
      refine ⟨ForestInv_of_eq w _ _ hs0 (fun x => by simp [tokens, held, current]) rfl rfl
        (fun x => rfl) (by simp) (by simp)
        (fun _ => Or.inl (fun e => hl (List.length_eq_zero.mpr e))) (by simp) (by simp) hres, ?_⟩
      simp [walkMeasure, pcWeight]
  | wait =>
    simp only [stepMain] at h
    by_cases hl : gor.length = 0
    · simp only [hl, if_true, Option.some.injEq] at h
      subst h
      refine ⟨ForestInv_of_eq w _ _ hs0 (fun x => by simp [tokens, held, current]) rfl rfl
        (fun x => rfl) (by simp) (by simp)
        (fun _ => Or.inr (List.length_eq_zero.mp hl)) (by simp) (by simp) hres, ?_⟩
      simp [walkMeasure, pcWeight]
    · simp [hl] at h
  | done r => simp [stepMain] at h


theorem forest_name_injective (w : World) (hf : Forest w) (p q : Ptr)
    (hp : p ∈ w.g.items.map Prod.snd) (hq : q ∈ w.g.items.map Prod.snd)
    (h : (deref w.mem p).name = (deref w.mem q).name) : p = q :=
  registered_name_injective w (Registry_reach w hf.1) p q hp hq h

theorem forest_parents (w : World) (hf : Forest w) (x : Ptr)
    (hx : x ∈ w.g.items.map Prod.snd) :
    (deref w.mem x).parents = [] ∨ ∃ p, (deref w.mem x).parents = [p] := by
  have := hf.2.2 x hx
  rcases hps : (deref w.mem x).parents with _ | ⟨p, tl⟩
  · exact Or.inl rfl
  · rw [hps] at this
    cases tl with
    | nil => exact Or.inr ⟨p, rfl⟩
    | cons a b => simp at this

theorem not_own_child (w : World) (hf : Forest w) (i : Ptr) :
    (deref w.mem i).edges.count i = 0 := by
  apply List.count_eq_zero_of_not_mem
  intro h
  exact (Reachable_inv w hf.1).2.2 i (Relation.TransGen.single h)

theorem pendingWeight_cons (w : World) (hf : Forest w) (visited : List String) (i : Ptr)
    (hi : i ∈ w.g.items.map Prod.snd) (hfresh : (deref w.mem i).name ∉ visited) :
    pendingWeight w ((deref w.mem i).name :: visited)
      + (10 * (deref w.mem i).edges.length + 1) = pendingWeight w visited := by
  unfold pendingWeight
  apply sum_filter_remove (fun x => 10 * (deref w.mem x).edges.length + 1)
    (fun x => decide ((deref w.mem x).name ∉ visited))
    (fun x => decide ((deref w.mem x).name ∉ (deref w.mem i).name :: visited)) i
    (w.g.items.map Prod.snd) (registered_nodup w (Registry_reach w hf.1)) hi
  · simpa using hfresh
  · intro x hx
    have hxv := hx
    by_cases e : x = i
    · subst e; simp
    · have hne : ¬ (deref w.mem x).name = (deref w.mem i).name :=
        fun h => e (forest_name_injective w hf x i hxv hi h)
      simp [e, hne]


theorem count_single (i p : Ptr) : List.count i [p] = if i = p then 1 else 0 := by
  by_cases e : i = p
  · subst e; simp
  · have : ¬ p = i := fun h => e h.symm
    simp [e, this]

theorem ForestInv_visit (w : World) (hf : Forest w) (k : Nat) (s s1 : Walk)
    (hs : ForestInv w s) (h : visit w cbOk k s = some s1) :
    ForestInv w s1 ∧ walkMeasure w s1 < walkMeasure w s := by
  have hs0 := hs
  obtain ⟨pc, stack, visited, errors, gor, trace⟩ := s
  obtain ⟨h0, h1, h1', h2, hcheck, hreq, htop, hdeq, hdone, hres, h6⟩ := hs
  simp only at hcheck hreq htop hdeq hdone hres
  unfold visit at h
  simp only at h
  rcases hk : gor[k]? with _ | ⟨i, g⟩
  · simp [hk] at h
  · have hmem : (i, g) ∈ gor := List.mem_iff_getElem?.mpr ⟨k, hk⟩
    have hgne : gor ≠ [] := by
      intro e; rw [e] at hmem; cases hmem
    have htop1 : pc = PC.top → stack ≠ [] := by
      intro e
      rcases htop e with h | h
      · exact h
      · exact absurd h hgne
    have hdone1 : ∀ r, pc ≠ PC.done r := fun r e => hgne (hdone r e).2
    -- the goroutine moves to another state and logs one event
    have hmove : ∀ (g1 : GState) (ev : Event),
        (∀ r, (g1 = GState.running r ∨ g1 = GState.returned r) → r = none) →
        (∀ x, List.count (Event.start x) (trace ++ [ev]) + startedIn x (i, g)
          = List.count (Event.start x) trace + startedIn x (i, g1)) →
        gweight (i, g1) < gweight (i, g) →
        ForestInv w ⟨pc, stack, visited, errors, gor.set k (i, g1), trace ++ [ev]⟩ ∧
          walkMeasure w ⟨pc, stack, visited, errors, gor.set k (i, g1), trace ++ [ev]⟩
            < walkMeasure w ⟨pc, stack, visited, errors, gor, trace⟩ := by
      intro g1 ev hg1 hcount hw
      have htok : ∀ x, tokens ⟨pc, stack, visited, errors, gor.set k (i, g1), trace ++ [ev]⟩ x
          = tokens ⟨pc, stack, visited, errors, gor, trace⟩ x := by
        intro x
        have := gsum_set (inFlight x) gor k (i, g) (i, g1) hk
        simp only [tokens, inFlight] at this ⊢
        omega
      constructor
      · refine ⟨?_, ?_, ?_, ?_, hcheck, hreq, fun e => Or.inl (htop1 e), hdeq,
          fun r e => absurd e (hdone1 r), ?_, ?_⟩
        · intro x hx; rw [htok] at hx; exact h0 x hx
        · intro x hx hp; rw [htok]; exact h1 x hx hp
        · intro x p hx hp; rw [htok]; exact h1' x p hx hp
        · intro x hx; rw [htok]; exact h2 x hx
        · intro x gs r hm hr
          rcases List.mem_or_eq_of_mem_set hm with hm | hm
          · exact hres x gs r hm hr
          · simp only [Prod.mk.injEq] at hm
            rcases hm with ⟨_, rfl⟩
            exact hg1 r hr
        · intro x hx
          have a := h6 x hx
          have b := gsum_set (startedIn x) gor k (i, g) (i, g1) hk
          have c := hcount x
          simp only [finished] at a ⊢
          omega
      · have := gsum_set gweight gor k (i, g) (i, g1) hk
        simp only [walkMeasure]
        omega
    rcases g with _ | r | r
    · simp only [hk, Option.some.injEq] at h
      subst h
      refine hmove _ _ (fun r hr => ?_) (fun x => ?_) (by show (_ : Nat) < _; simp [gweight])
      · rcases hr with hr | hr
        · simp only [GState.running.injEq] at hr
          rw [← hr]; rfl
        · cases hr
      · by_cases e : i = x
        · subst e
          simp [startedIn, List.count_append]
        · have e1 : ¬ x = i := fun h => e h.symm
          simp [startedIn, List.count_append, e, e1]
    · have hr0 := hres i _ r hmem (Or.inl rfl)
      subst hr0
      simp only [hk, Option.some.injEq] at h
      subst h
      refine hmove _ _ (fun r hr => ?_) (fun x => ?_) (by show (_ : Nat) < _; simp [gweight])
      · rcases hr with hr | hr
        · cases hr
        · simp only [GState.returned.injEq] at hr
          exact hr.symm
      · simp [startedIn, List.count_append]
    · have hr0 := hres i _ r hmem (Or.inr rfl)
      subst hr0
      simp only [hk, Option.some.injEq] at h
      have hs1 : s1 = ⟨pc, stack ++ (deref w.mem i).edges, (deref w.mem i).name :: visited,
          errors, gor.eraseIdx k, trace⟩ := h.symm
      clear h
      -- the goroutine finishes
      have hE : ∀ x, gsum (inFlight x) (gor.eraseIdx k) + (if i = x then 1 else 0)
          = gsum (inFlight x) gor := by
        intro x
        have := gsum_eraseIdx (inFlight x) gor k _ hk
        simpa [inFlight] using this
      have hS : ∀ x, gsum (startedIn x) s1.goroutines + (if i = x then 1 else 0)
          = gsum (startedIn x) gor := by
        intro x
        have := gsum_eraseIdx (startedIn x) gor k _ hk
        rw [hs1]
        simpa [startedIn] using this
      have hW : gsum gweight (gor.eraseIdx k) + 1 = gsum gweight gor := by
        have := gsum_eraseIdx gweight gor k _ hk
        simpa [gweight] using this
      have hitok : 0 < tokens ⟨pc, stack, visited, errors, gor, trace⟩ i := by
        have := hE i
        simp only [tokens, if_true] at this ⊢
        omega
      have hi := h0 i hitok
      have hifin : finished w ⟨pc, stack, visited, errors, gor, trace⟩ i = 0 := by
        have := h2 i hi
        omega
      have hfresh : (deref w.mem i).name ∉ visited := by
        intro hm
        have : 0 < finished w ⟨pc, stack, visited, errors, gor, trace⟩ i :=
          List.count_pos_iff.mpr hm
        omega
      have hfin1 : ∀ x, x ∈ w.g.items.map Prod.snd →
          finished w s1 x = finished w ⟨pc, stack, visited, errors, gor, trace⟩ x
            + (if i = x then 1 else 0) := by
        intro x hx
        rw [hs1]
        simp only [finished]
        rw [List.count_cons]
        by_cases e : i = x
        · subst e; simp
        · have hne : ¬ (deref w.mem i).name = (deref w.mem x).name :=
            fun h => e (forest_name_injective w hf i x hi hx h)
          simp [e, hne]
      have htok1 : ∀ x, tokens s1 x + (if i = x then 1 else 0)
          = tokens ⟨pc, stack, visited, errors, gor, trace⟩ x
            + List.count i (deref w.mem x).parents := by
        intro x
        have a := hE x
        have c : List.count x (deref w.mem i).edges = List.count i (deref w.mem x).parents :=
          (Reachable_inv w hf.1).2.1 i x
        rw [hs1]
        simp only [tokens, List.count_append]
        omega
      have hself : List.count i (deref w.mem i).parents = 0 := by
        rw [← (Reachable_inv w hf.1).2.1 i i]
        exact not_own_child w hf i
      have hvalid := hf.2.1
      constructor
      · refine ⟨?_, ?_, ?_, ?_, ?_, ?_, ?_, ?_, ?_, ?_, ?_⟩
        · intro x hx
          by_cases hc : x ∈ (deref w.mem i).edges
          · exact hvalid i hi x (Or.inl hc)
          · apply h0 x
            have a := htok1 x
            have b : List.count i (deref w.mem x).parents = 0 := by
              rw [← (Reachable_inv w hf.1).2.1 i x]
              exact List.count_eq_zero_of_not_mem hc
            by_cases e : i = x
            · rw [← e]; exact hitok
            · simp only [e, if_false] at a
              omega
        · intro x hx hp
          have a := htok1 x
          have b := hfin1 x hx
          have d := h1 x hx hp
          rw [hp, List.count_nil] at a
          omega
        · intro x p hx hp
          have hpv : p ∈ w.g.items.map Prod.snd := hvalid x hx p (Or.inr (by rw [hp]; simp))
          have a := htok1 x
          have b := hfin1 x hx
          have b1 := hfin1 p hpv
          have d := h1' x p hx hp
          rw [hp, count_single] at a
          by_cases e1 : i = x
          · subst e1
            have e2 : ¬ i = p := by
              intro e
              rw [hp, count_single, if_pos e] at hself
              cases hself
            simp only [e2, if_false, if_true] at a b b1
            omega
          · by_cases e2 : i = p
            · subst e2
              simp only [e1, if_false, if_true] at a b b1
              omega
            · simp only [e1, e2, if_false] at a b b1
              omega
        · intro x hx
          have a := htok1 x
          have b := hfin1 x hx
          have d := h2 x hx
          rcases forest_parents w hf x hx with hp | ⟨p, hp⟩
          · rw [hp, List.count_nil] at a
            omega
          · have d1 := h1' x p hx hp
            rw [hp, count_single] at a
            by_cases e2 : i = p
            · subst e2
              have e1 : ¬ i = x := by
                intro e
                subst e
                rw [hp, count_single, if_pos rfl] at hself
                cases hself
              simp only [e1, if_false, if_true] at a b
              omega
            · simp only [e2, if_false] at a
              omega
        · intro x ps hx q hq
          rw [hs1] at hx ⊢
          exact List.mem_cons_of_mem _ (hcheck x ps hx q hq)
        · intro x ps; rw [hs1]; exact hreq x ps
        · intro e
          rw [hs1] at e ⊢
          left
          intro hnil
          exact htop1 e (List.append_eq_nil.mp hnil).1
        · intro e
          rw [hs1] at e ⊢
          intro hnil
          exact hdeq e (List.append_eq_nil.mp hnil).1
        · intro r e
          rw [hs1] at e
          exact absurd e (hdone1 r)
        · intro x gs r hm hr
          rw [hs1] at hm
          exact hres x gs r (List.mem_of_mem_eraseIdx hm) hr
        · intro x hx
          have a := hS x
          have b := hfin1 x hx
          have d := h6 x hx
          have e : s1.trace = trace := by rw [hs1]
          rw [e]
          simp only at d
          omega
      · have hp := pendingWeight_cons w hf visited i hi hfresh
        rw [hs1]
        simp only [walkMeasure, List.length_append]
        omega


theorem forest_induction (w : World) (hf : Forest w) (P : Ptr → Prop)
    (hroot : ∀ x, x ∈ w.g.items.map Prod.snd → (deref w.mem x).parents = [] → P x)
    (hstep : ∀ x p, x ∈ w.g.items.map Prod.snd → (deref w.mem x).parents = [p] → P p → P x) :
    ∀ x, x ∈ w.g.items.map Prod.snd → P x := by
  have hinv := Reachable_inv w hf.1
  let r : Fin w.mem.length → Fin w.mem.length → Prop :=
    fun a b => Relation.TransGen (ChildEdge w.mem) a.val b.val
  haveI : IsTrans (Fin w.mem.length) r := ⟨fun a b c hab hbc => Relation.TransGen.trans hab hbc⟩
  haveI : IsIrrefl (Fin w.mem.length) r := ⟨fun a h => hinv.2.2 a.val h⟩
  have hwf : WellFounded r := Finite.wellFounded_of_trans_of_irrefl r
  have hreg := Registry_reach w hf.1
  have hvalid : ∀ x, x ∈ w.g.items.map Prod.snd → x < w.mem.length := by
    intro x hx
    rcases List.mem_map.mp hx with ⟨e, he, rfl⟩
    exact (hreg.1 e he).1
  intro x hx
  have key : ∀ a : Fin w.mem.length, a.val ∈ w.g.items.map Prod.snd → P a.val := by
    intro a
    induction a using hwf.induction with
    | _ a ih =>
      intro ha
      rcases forest_parents w hf a.val ha with hp | ⟨p, hp⟩
      · exact hroot a.val ha hp
      · have hpr : p ∈ w.g.items.map Prod.snd := hf.2.1 a.val ha p (Or.inr (by rw [hp]; simp))
        have hedge : ChildEdge w.mem p a.val :=
          (ParentLink_iff_ChildEdge w.mem hinv.2.1 a.val p).mp (by
            unfold ParentLink; rw [hp]; simp)
        exact hstep a.val p ha hp
          (ih ⟨p, hvalid p hpr⟩ (Relation.TransGen.single hedge) hpr)
  exact key ⟨x, hvalid x hx⟩ hx

theorem ForestInv_start (w : World) (hf : Forest w) (hne : w.g.items.length ≠ 0)
    (order : List Ptr) (ho : order.Perm (readyItems w)) :
    ForestInv w (walkStart w order) := by
  have hreg := Registry_reach w hf.1
  have hnd := registered_nodup w hreg
  have hcount : ∀ x, List.count x order
      = if (deref w.mem x).parents.length = 0 then List.count x (w.g.items.map Prod.snd)
        else 0 := by
    intro x
    rw [ho.count_eq, readyItems]
    by_cases h : (deref w.mem x).parents.length = 0
    · rw [if_pos h, List.count_filter (by simpa using h)]
    · rw [if_neg h]
      apply List.count_eq_zero_of_not_mem
      intro hm
      exact h (by simpa using (List.mem_filter.mp hm).2)
  have htok : ∀ x, tokens (walkEntry order) x = List.count x order := by
    intro x; simp [tokens, walkEntry, held, current, gsum]
  have hfin : ∀ x, finished w (walkEntry order) x = 0 := by
    intro x; simp [finished, walkEntry]
  unfold walkStart
  rw [if_neg hne]
  refine ⟨?_, ?_, ?_, ?_, by simp [walkEntry], by simp [walkEntry], by simp [walkEntry],
    by simp [walkEntry], by simp [walkEntry], by simp [walkEntry], ?_⟩
  · intro x hx
    rw [htok, hcount] at hx
    split at hx
    · exact List.count_pos_iff.mp hx
    · cases hx
  · intro x hx hp
    rw [htok, hfin, hcount, hp]
    simp only [List.length_nil, if_true]
    exact List.count_eq_one_of_mem hnd hx
  · intro x p hx hp
    rw [htok, hfin, hfin, hcount, hp]
    simp
  · intro x hx
    rw [htok, hfin, hcount]
    split
    · have := List.count_eq_one_of_mem hnd hx
      omega
    · omega
  · intro x _
    simp [walkEntry, gsum, finished]

theorem ForestInv_step (w : World) (hf : Forest w) (c : Choice) (s s1 : Walk)
    (hs : ForestInv w s) (h : step w cbOk c s = some s1) :
    ForestInv w s1 ∧ walkMeasure w s1 < walkMeasure w s := by
  cases c with
  | main => exact ForestInv_stepMain w hf s s1 hs h
  | go k => exact ForestInv_visit w hf k s s1 hs h

theorem ForestInv_reach (w : World) (hf : Forest w) (hne : w.g.items.length ≠ 0) (s : Walk)
    (h : WalkReach w cbOk s) : ForestInv w s := by
  induction h with
  | start hs =>
    rcases hs with ⟨order, ho, rfl⟩
    exact ForestInv_start w hf hne order ho
  | step c _ hstep ih => exact (ForestInv_step w hf c _ _ ih hstep).1

theorem ForestInv_run (w : World) (hf : Forest w) (sched : List Choice) :
    ∀ s s1 : Walk, ForestInv w s → run w cbOk sched s = some s1 →
      ForestInv w s1 ∧ sched.length + walkMeasure w s1 ≤ walkMeasure w s := by
  induction sched with
  | nil =>
    intro s s1 hs h
    simp only [run, Option.some.injEq] at h
    rw [← h]
    exact ⟨hs, by simp⟩
  | cons c rest ih =>
    intro s s1 hs h
    unfold run at h
    rcases hc : step w cbOk c s with _ | s2
    · simp [hc] at h
    · simp only [hc] at h
      have h2 := ForestInv_step w hf c s s2 hs hc
      have h3 := ih s2 s1 h2.1 h
      refine ⟨h3.1, ?_⟩
      simp only [List.length_cons]
      omega

theorem ForestInv_progress (w : World) (s : Walk) (hs : ForestInv w s) :
    (∃ r, s.pc = PC.done r) ∨ ∃ c s1, step w cbOk c s = some s1 := by
  obtain ⟨pc, stack, visited, errors, gor, trace⟩ := s
  obtain ⟨_, _, _, _, _, _, _, hdeq, _, hres, _⟩ := hs
  simp only at hdeq hres
  cases pc with
  | top =>
    right
    by_cases hl : stack.length = 0
    · exact ⟨Choice.main, _, by simp [step, stepMain, hl]; rfl⟩
    · exact ⟨Choice.main, _, by simp [step, stepMain, hl]; rfl⟩
  | deq =>
    right
    cases stack with
    | nil => exact absurd rfl (hdeq rfl)
    | cons c rest => exact ⟨Choice.main, _, by simp [step, stepMain]; rfl⟩
  | check cur ps =>
    right
    cases ps with
    | nil => exact ⟨Choice.main, _, by simp [step, stepMain]; rfl⟩
    | cons p rest =>
      by_cases hv : (deref w.mem p).name ∈ visited
      · exact ⟨Choice.main, _, by simp [step, stepMain, hv]; rfl⟩
      · exact ⟨Choice.main, _, by simp [step, stepMain, hv]; rfl⟩
  | requeue cur ps => exact Or.inr ⟨Choice.main, _, by simp [step, stepMain]; rfl⟩
  | launch cur => exact Or.inr ⟨Choice.main, _, by simp [step, stepMain]; rfl⟩
  | len =>
    right
    by_cases hl : stack.length = 0
    · exact ⟨Choice.main, _, by simp [step, stepMain, hl]; rfl⟩
    · exact ⟨Choice.main, _, by simp [step, stepMain, hl]; rfl⟩
  | wait =>
    right
    cases gor with
    | nil => exact ⟨Choice.main, _, by simp [step, stepMain]; rfl⟩
    | cons e rest =>
      rcases e with ⟨i, g⟩
      rcases g with _ | r | r
      · exact ⟨Choice.go 0, _, by simp [step, visit]; rfl⟩
      · have := hres i _ r (List.mem_cons_self _ _) (Or.inl rfl)
        subst this
        exact ⟨Choice.go 0, _, by simp [step, visit]; rfl⟩
      · have := hres i _ r (List.mem_cons_self _ _) (Or.inr rfl)
        subst this
        exact ⟨Choice.go 0, _, by simp [step, visit]; rfl⟩
  | done r => exact Or.inl ⟨r, rfl⟩

theorem forest_terminates (w : World) (hf : Forest w) :
    ∀ (n : Nat) (s : Walk), ForestInv w s → walkMeasure w s ≤ n →
      ∃ sched s1, run w cbOk sched s = some s1 ∧ ∃ r, s1.pc = PC.done r := by
  intro n
  induction n with
  | zero =>
    intro s hs hm
    rcases ForestInv_progress w s hs with hd | ⟨c, s2, hc⟩
    · exact ⟨[], s, rfl, hd⟩
    · have := (ForestInv_step w hf c s s2 hs hc).2
      omega
  | succ n ih =>
    intro s hs hm
    rcases ForestInv_progress w s hs with hd | ⟨c, s2, hc⟩
    · exact ⟨[], s, rfl, hd⟩
    · have h2 := ForestInv_step w hf c s s2 hs hc
      rcases ih s2 h2.1 (by omega) with ⟨sched, s1, hrun, hd⟩
      exact ⟨c :: sched, s1, by simp [run, hc, hrun], hd⟩

theorem ForestInv_done (w : World) (hf : Forest w) (s : Walk) (hs : ForestInv w s)
    (r : Option String) (hd : s.pc = PC.done r) :
    ∀ x, x ∈ w.g.items.map Prod.snd → s.trace.count (Event.start x) = 1 := by
  obtain ⟨_, h1, h1', _, _, _, _, _, hdone, _, h6⟩ := hs
  have hempty := hdone r hd
  have htok : ∀ x, tokens s x = 0 := by
    intro x
    simp [tokens, hempty.1, hempty.2, hd, held, current, gsum]
  have hfin : ∀ x, x ∈ w.g.items.map Prod.snd → finished w s x = 1 := by
    apply forest_induction w hf
    · intro x hx hp
      have := h1 x hx hp
      rw [htok] at this
      omega
    · intro x p hx hp ih
      have := h1' x p hx hp
      rw [htok] at this
      omega
  intro x hx
  rw [h6 x hx, hfin x hx, hempty.2]
  simp [gsum]

/-- C12: on a non-empty graph built through the interface, in which relations
only join registered items and every registered item has at most one parent,
with a callback that always succeeds and for every order of the ready items:
some schedule runs the walk to its return; no schedule is longer than the
measure of the initial state, and a walk that has not returned can always take a
step, so every walk returns; and a walk that has returned, returned `nil` and
has invoked the callback exactly once on every registered item. -/
theorem forest_walk_exact (w : World) (hw : Reachable w)
    (hchildren : ∀ x ∈ w.g.items.map Prod.snd, ∀ q ∈ (deref w.mem x).edges,
      q ∈ w.g.items.map Prod.snd)
    (hparents : ∀ x ∈ w.g.items.map Prod.snd, ∀ q ∈ (deref w.mem x).parents,
      q ∈ w.g.items.map Prod.snd)
    (hforest : ∀ x ∈ w.g.items.map Prod.snd, (deref w.mem x).parents.length ≤ 1)
    (hne : w.g.items.length ≠ 0) (order : List Ptr) (ho : order.Perm (readyItems w)) :
    (∃ sched s, WalkForExecution w cbOk order sched = some s ∧ s.pc = PC.done none) ∧
    (∀ sched s, WalkForExecution w cbOk order sched = some s →
      sched.length ≤ walkMeasure w (walkStart w order) ∧
      ((∃ r, s.pc = PC.done r) ∨ ∃ c s1, step w cbOk c s = some s1)) ∧
    (∀ s, WalkReach w cbOk s → ∀ r, s.pc = PC.done r →
      r = none ∧ ∀ x ∈ w.g.items.map Prod.snd, s.trace.count (Event.start x) = 1) := by
  have hf : Forest w :=
    ⟨hw, fun x hx q hq => hq.elim (hchildren x hx q) (hparents x hx q), hforest⟩
  have hstart := ForestInv_start w hf hne order ho
  refine ⟨?_, ?_, ?_⟩
  · rcases forest_terminates w hf _ _ hstart (Nat.le_refl _) with ⟨sched, s1, hrun, r, hd⟩
    have hreach : WalkReach w cbOk s1 :=
      WalkReach_WalkForExecution w cbOk order sched s1 ho hrun
    have := walk_returns_nil w cbOk hne s1 hreach r hd
    subst this
    exact ⟨sched, s1, hrun, hd⟩
  · intro sched s hrun
    have := ForestInv_run w hf sched _ s hstart hrun
    exact ⟨by omega, ForestInv_progress w s this.1⟩
  · intro s hs r hd
    exact ⟨walk_returns_nil w cbOk hne s hs r hd,
      ForestInv_done w hf s (ForestInv_reach w hf hne s hs) r hd⟩

theorem Reachable_testItems : Reachable testItems :=
  Reachable_AddItems _ _ (Reachable_NewItems _ _ Reachable.newGraph) (by decide)

theorem testTree_built :
    AddItemRelations testItems [(1, 2), (1, 3), (1, 4), (4, 5), (4, 1), (4, 4)]
      = some (testTree, [none, none, none, none, some "cyclic", some "cyclic"]) := by
  decide

theorem Reachable_testTree : Reachable testTree :=
  Reachable_AddItemRelations _ _ _ _ Reachable_testItems (by decide) testTree_built

theorem forest_walk_exact_witness :
    (∃ sched s, WalkForExecution testTree cbOk [0, 1, 6, 7, 8, 9] sched = some s ∧
        s.pc = PC.done none) ∧
    (∀ sched s, WalkForExecution testTree cbOk [0, 1, 6, 7, 8, 9] sched = some s →
      sched.length ≤ walkMeasure testTree (walkStart testTree [0, 1, 6, 7, 8, 9]) ∧
      ((∃ r, s.pc = PC.done r) ∨ ∃ c s1, step testTree cbOk c s = some s1)) ∧
    (∀ s, WalkReach testTree cbOk s → ∀ r, s.pc = PC.done r →
      r = none ∧
        ∀ x ∈ testTree.g.items.map Prod.snd, s.trace.count (Event.start x) = 1) :=
  forest_walk_exact testTree Reachable_testTree (by decide) (by decide) (by decide)
    (by decide) [0, 1, 6, 7, 8, 9] (by decide)
end Asyncjobs
